import Mathlib

/-!
Verification of the `hamiltonian_simulation` notebook (Classiq coding
competition submission).  The notebook parses a 276-line Pauli-string file,
greedily groups the terms into pairwise-commuting subsets, builds a Clifford
circuit simultaneously diagonalizing each subset (`sim_cliff_diag`), emits
circuits for the resulting diagonal Paulis (`walk_paulis`), and concatenates
everything with a 2-step Trotter repetition over a hard-coded group ordering
(`master_circuit`).

This file shallowly embeds those computations: numpy boolean matrices become
`List (List Bool)`, qiskit circuits become lists of gates, Python exceptions
(the `sweep_rows` `Exception`, `assert`s, `IndexError`s, parse failures)
become an explicit error type, and real coefficients become exact rationals (exact decimal
parsing in place of IEEE floats; no claim touching actual float rounding is
settled through it).
-/

namespace HamSim

/-! ### Exact rational arithmetic

Mathlib's `ℚ` has `@[irreducible]` arithmetic, which blocks kernel
evaluation of the embedded pipeline on concrete inputs, so the real
coefficients of the notebook are embedded as a plain normalized-fraction
type `Q` with ordinary reducible operations.  `Q.toRat` is the obvious
value map. -/

/-- An exact rational: normalized numerator/positive denominator pair. -/
structure Q where
  num : Int
  den : Nat
deriving DecidableEq, Repr, Inhabited

/-- Build a normalized fraction from an integer numerator and denominator. -/
def Q.mk' (a b : Int) : Q :=
  if b = 0 then ⟨0, 1⟩
  else
    let s : Int := if b < 0 then -1 else 1
    let a2 := s * a
    let b2 := (s * b).toNat
    let g2 := Nat.gcd a2.natAbs b2
    ⟨a2 / g2, b2 / g2⟩

/-- Addition. -/
def Q.add (a b : Q) : Q := Q.mk' (a.num * b.den + b.num * a.den) (a.den * b.den)

/-- Multiplication. -/
def Q.mul (a b : Q) : Q := Q.mk' (a.num * b.num) (a.den * b.den)

/-- Negation. -/
def Q.neg (a : Q) : Q := ⟨-a.num, a.den⟩

/-- Subtraction. -/
def Q.sub (a b : Q) : Q := Q.add a (Q.neg b)

/-- Division (`a / 0 = 0`, never hit by the notebook). -/
def Q.div (a b : Q) : Q := Q.mk' (a.num * b.den) (a.den * b.num)

/-- Embed a natural number. -/
def Q.ofNat (m : Nat) : Q := ⟨m, 1⟩

instance : Add Q := ⟨Q.add⟩
instance : Mul Q := ⟨Q.mul⟩
instance : Neg Q := ⟨Q.neg⟩
instance : Sub Q := ⟨Q.sub⟩
instance : Div Q := ⟨Q.div⟩
instance : OfNat Q m := ⟨Q.ofNat m⟩
instance : NatCast Q := ⟨Q.ofNat⟩

/-- Natural-number powers. -/
def Q.pow (a : Q) : Nat → Q
  | 0 => 1
  | m + 1 => a * Q.pow a m

instance : Pow Q Nat := ⟨Q.pow⟩

/-- The value of a `Q` as a Mathlib rational. -/
def Q.toRat (a : Q) : ℚ := (a.num : ℚ) / (a.den : ℚ)

/-- A qiskit `Pauli`: per-qubit X and Z bit-vectors (index `k` = qubit `k`)
plus a group-phase exponent (the `(-i)^phase` convention; the notebook only
ever constructs phases `0` and `2`). -/
structure PauliT where
  x : List Bool
  z : List Bool
  phase : Nat
deriving DecidableEq, Repr, Inhabited

/-- A qiskit `PauliOp`: a `Pauli` primitive with a real coefficient
(embedded as `Q`). -/
structure WPauli where
  primitive : PauliT
  coeff : Q
deriving DecidableEq, Repr, Inhabited

/-- The gates the notebook ever appends to a circuit, plus `sdg`, which
qiskit's `QuantumCircuit.inverse()` produces as the inverse of `s`.
Angles are carried as `Q`. -/
inductive Gate where
  | h (q : Nat)
  | s (q : Nat)
  | sdg (q : Nat)
  | x (q : Nat)
  | rz (theta : Q) (q : Nat)
  | p (theta : Q) (q : Nat)
  | cx (c t : Nat)
deriving DecidableEq, Repr, Inhabited

/-- A qiskit `QuantumCircuit` on the fixed register: just its gate list. -/
abbrev Circuit := List Gate

/-- The qubits a gate acts on (qiskit `instruction.qubits`). -/
def gateQubits : Gate → List Nat
  | .h q => [q]
  | .s q => [q]
  | .sdg q => [q]
  | .x q => [q]
  | .rz _ q => [q]
  | .p _ q => [q]
  | .cx c t => [c, t]

/-- The qiskit gate name, as it appears in `instruction.operation.name`. -/
def gateName : Gate → String
  | .h _ => "h"
  | .s _ => "s"
  | .sdg _ => "sdg"
  | .x _ => "x"
  | .rz _ _ => "rz"
  | .p _ _ => "p"
  | .cx _ _ => "cx"

/-- The Python exceptions the script can raise: the explicit
`Exception("Unexpected result in sweep_rows")`, the two `assert`s at the end
of `sim_cliff_diag`, `IndexError` (empty-list indexing / out-of-range
`list.pop`), and the parse failures of `float(...)` / `Pauli(...)` /
tuple destructuring. -/
inductive Err where
  | sweepUnexpected
  | assertXFailed
  | assertX2Failed
  | indexError
  | parseError
deriving DecidableEq, Repr

/-! ### Step 0 — parsing `LiH_hamiltonian.txt`

```python
paulis = [PauliOp(Pauli(s), (-1 if sign == '-' else 1) * float(prefactor))
          for sign, prefactor, _, s in
          [pauli.strip().split(' ') for pauli in
           pauli_strings.read().splitlines() if pauli]]
```
-/

/-- One character of a qiskit Pauli label. -/
def charXZ : Char → Option (Bool × Bool)
  | 'I' => some (false, false)
  | 'X' => some (true, false)
  | 'Y' => some (true, true)
  | 'Z' => some (false, true)
  | _ => none

/-- Embeds `qiskit.quantum_info.Pauli(s)` on a plain `IXYZ` label: the leftmost
label character is the highest qubit, so qubit `k` reads position
`n - 1 - k`; phase `0`. -/
def parseLabel (s : List Char) : Option PauliT :=
  (s.mapM charXZ).map fun prs =>
    let rev := prs.reverse
    ⟨rev.map Prod.fst, rev.map Prod.snd, 0⟩

/-- Python `str.split(sep)` with an explicit one-character separator: no
run collapsing, empty pieces kept.  (Lean's own `String.splitOn` is opaque to
kernel evaluation, so the splitting is embedded structurally.) -/
def splitOnChar (sep : Char) : List Char → List (List Char)
  | [] => [[]]
  | c :: cs =>
    let r := splitOnChar sep cs
    if c == sep then [] :: r
    else
      match r with
      | [] => [[c]]
      | hd :: tl => (c :: hd) :: tl

/-- Python `str.strip()`: drop whitespace from both ends. -/
def stripChars (cs : List Char) : List Char :=
  ((cs.dropWhile Char.isWhitespace).reverse.dropWhile Char.isWhitespace).reverse

/-- Parse an unsigned run of decimal digits. -/
def digitsToNat : List Char → Option Nat
  | [] => none
  | cs => cs.foldlM (fun acc c => if c.isDigit then some (acc * 10 + (c.toNat - 48)) else none) 0

/-- Embeds `float(prefactor)` for the decimal literals appearing in the input file,
embedded exactly over `Q` (optional sign, integer part, optional fractional
part, optional decimal exponent; IEEE rounding is not modelled). -/
def floatQ (cs0 : List Char) : Option Q :=
  let (sgn, cs) : Q × List Char :=
    match cs0 with
    | '-' :: rest => (-1, rest)
    | '+' :: rest => (1, rest)
    | _ => (1, cs0)
  let (mant, expPart) : List Char × Option (List Char) :=
    match splitOnChar 'e' cs with
    | [_] =>
      match splitOnChar 'E' cs with
      | [m2] => (m2, none)
      | [m2, e2] => (m2, some e2)
      | _ => ([], some [])
    | [m, e] => (m, some e)
    | _ => ([], some [])
  let mantQ : Option Q :=
    match splitOnChar '.' mant with
    | [intp] => (digitsToNat intp).map (fun v => (v : Q))
    | [intp, frac] =>
      match digitsToNat (intp ++ frac) with
      | some v => some ((v : Q) / ((10 : Q) ^ frac.length))
      | none =>
        match intp, digitsToNat frac with
        | [], some vf => some ((vf : Q) / ((10 : Q) ^ frac.length))
        | _, _ => none
    | _ => none
  let expQ : Option ℤ :=
    match expPart with
    | none => some 0
    | some ec =>
      match ec with
      | '-' :: rest => (digitsToNat rest).map (fun v => -(v : ℤ))
      | '+' :: rest => (digitsToNat rest).map (fun v => (v : ℤ))
      | _ => (digitsToNat ec).map (fun v => (v : ℤ))
  match mantQ, expQ with
  | some m, some e =>
    some (sgn * m * (if e < 0 then 1 / (10 : Q) ^ e.natAbs else (10 : Q) ^ e.natAbs))
  | _, _ => none

/-- One line of the input file: `strip`, split on single spaces, destructure
into `sign, prefactor, _, s`, and build
`PauliOp(Pauli(s), (-1 if sign == '-' else 1) * float(prefactor))`. -/
def parse_line (line : List Char) : Option WPauli :=
  match splitOnChar ' ' (stripChars line) with
  | [sign, prefactor, _, s] =>
    (floatQ prefactor).bind fun v =>
      (parseLabel s).map fun prim =>
        ⟨prim, (if sign = ['-'] then (-1 : Q) else 1) * v⟩
  | _ => none

/-- The whole `paulis` comprehension: split the file into lines, keep the
non-empty ones, parse each. -/
def parse_file (content : String) : Option (List WPauli) :=
  ((splitOnChar '\n' content.toList).filter (fun l => l ≠ [])).mapM parse_line

/-! ### Step 1 — grouping commuting Paulis

```python
commuting_subsets = []
for pauli in paulis:
    for subset in commuting_subsets:
        if all([pauli.primitive.commutes(p.primitive) for p in subset]):
            subset.append(pauli)
            break
    else:
        commuting_subsets.append([pauli])
```
-/

/-- The symplectic overlap count of two Paulis:
`#{k | x₁ₖ ∧ z₂ₖ} + #{k | z₁ₖ ∧ x₂ₖ}`. -/
def symp (a b : PauliT) : Nat :=
  ((a.x.zip b.z).filter (fun pr => pr.1 && pr.2)).length +
    ((a.z.zip b.x).filter (fun pr => pr.1 && pr.2)).length

/-- Embeds `Pauli.commutes`: two Pauli strings commute iff their symplectic overlap
is even. -/
def commutes (a b : PauliT) : Bool :=
  symp a b % 2 == 0

/-- One iteration of the grouping loop: append `pauli` to the first subset
all of whose members commute with it, else open a new singleton subset. -/
def insert_greedy : List (List WPauli) → WPauli → List (List WPauli)
  | [], pauli => [[pauli]]
  | subset :: rest, pauli =>
    if subset.all (fun p => commutes pauli.primitive p.primitive) then
      (subset ++ [pauli]) :: rest
    else
      subset :: insert_greedy rest pauli

/-- The full grouping loop. -/
def commuting_subsets (paulis : List WPauli) : List (List WPauli) :=
  paulis.foldl insert_greedy []

/-! ### Step 2 — `sim_cliff_diag`

The numpy boolean matrices `X`, `Z` (one row per Pauli) and the sign column
`S` become a `Tab`; the copies `X2`, `Z2`, `S2` a second `Tab`.  Out-of-range
reads default to `false` / `[]`; the notebook never reads out of range. -/

/-- A numpy boolean matrix, as a list of rows. -/
abbrev Mat := List (List Bool)

/-- Row `i` of a matrix. -/
def getRow (m : Mat) (i : Nat) : List Bool := m.getD i []

/-- Entry `j` of a row. -/
def getB (row : List Bool) (j : Nat) : Bool := row.getD j false

/-- Entry `(i, j)` of a matrix. -/
def getM (m : Mat) (i j : Nat) : Bool := getB (getRow m i) j

/-- The value `m.shape[1]`: the (uniform) row length. -/
def width (m : Mat) : Nat := (m.headD []).length

/-- Pointwise `numpy.logical_xor` of two rows. -/
def xorRows (a b : List Bool) : List Bool := List.zipWith Bool.xor a b

/-- Swap rows `i` and `k` of a matrix. -/
def rowSwap (m : Mat) (i k : Nat) : Mat :=
  let ri := getRow m i
  let rk := getRow m k
  (m.set i rk).set k ri

/-- Swap columns `j` and `k` of a matrix. -/
def colSwap (m : Mat) (j k : Nat) : Mat :=
  m.map fun row =>
    let a := getB row j
    let b := getB row k
    (row.set j b).set k a

/-- The `(X, Z, S)` triple `sim_cliff_diag` manipulates (and likewise the
`(X2, Z2, S2)` copies). -/
structure Tab where
  X : Mat
  Z : Mat
  Sb : List Bool
deriving DecidableEq, Repr, Inhabited

/-- Python `int(b)` on a bool. -/
def bi (b : Bool) : Int := if b then 1 else 0

/-- The inner phase function `g` of `sweep_rows`, case for case. -/
def g (x1 z1 x2 z2 : Bool) : Int :=
  if !x1 && !z1 then 0
  else if x1 && z1 then bi z2 - bi x2
  else if x1 && !z1 then bi z2 * (2 * bi x2 - 1)
  else bi x2 * (1 - 2 * bi z2)

/-- The quantity `t` computed by `sweep_rows` for rows `i` and `j`. -/
def tval (t : Tab) (i j : Nat) : Int :=
  2 * bi (t.Sb.getD j false) + 2 * bi (t.Sb.getD i false) +
    ((List.range (width t.X)).map fun k =>
      g (getM t.X i k) (getM t.Z i k) (getM t.X j k) (getM t.Z j k)).sum

/-- The row updates of `sweep_rows`: row `j` of `X` and of `Z` gets xored
with row `i`. -/
def sweepXors (t : Tab) (i j : Nat) : Tab :=
  { t with
    X := t.X.set j (xorRows (getRow t.X j) (getRow t.X i)),
    Z := t.Z.set j (xorRows (getRow t.Z j) (getRow t.Z i)) }

/-- Embeds `sweep_rows(X, Z, S, i, j)`: add row `i` into row `j`, fixing the sign of
row `j` from `t`, and raise on `t % 4 ∉ {0, 2}`. -/
def sweep_rows (t : Tab) (i j : Nat) : Except Err Tab :=
  let tv := tval t i j
  if tv % 4 = 0 then .ok (sweepXors { t with Sb := t.Sb.set j false } i j)
  else if tv % 4 = 2 then .ok (sweepXors { t with Sb := t.Sb.set j true } i j)
  else .error .sweepUnexpected

/-- The Clifford column operation `h(X, Z, S, i)`. -/
def hOp (t : Tab) (i : Nat) : Tab :=
  { X := t.X.mapIdx fun r row => row.set i (getM t.Z r i),
    Z := t.Z.mapIdx fun r row => row.set i (getM t.X r i),
    Sb := t.Sb.mapIdx fun r b => Bool.xor b (getM t.X r i && getM t.Z r i) }

/-- The Clifford column operation `s(X, Z, S, i)`. -/
def sOp (t : Tab) (i : Nat) : Tab :=
  { X := t.X,
    Z := t.Z.mapIdx fun r row => row.set i (Bool.xor (getM t.Z r i) (getM t.X r i)),
    Sb := t.Sb.mapIdx fun r b => Bool.xor b (getM t.X r i && getM t.Z r i) }

/-- The Clifford column operation `cnot(X, Z, S, i, j)`. -/
def cnotOp (t : Tab) (i j : Nat) : Tab :=
  { X := t.X.mapIdx fun r row => row.set j (Bool.xor (getM t.X r j) (getM t.X r i)),
    Z := t.Z.mapIdx fun r row => row.set i (Bool.xor (getM t.Z r i) (getM t.Z r j)),
    Sb := t.Sb.mapIdx fun r b =>
      Bool.xor b (Bool.xor (Bool.xor (getM t.X r j) (getM t.Z r i)) true &&
        (getM t.X r i && getM t.Z r j)) }

/-- The Clifford column operation `cz(X, Z, S, i, j) = h(j); cnot(i, j); h(j)`. -/
def czOp (t : Tab) (i j : Nat) : Tab := hOp (cnotOp (hOp t j) i j) j

/-- The mutable state of `sim_cliff_diag`: the interim tableau, the copies
for the new Paulis, the circuit built so far, and the counters `kx`, `kz`. -/
structure DState where
  tab : Tab
  tab2 : Tab
  qc : Circuit
  kx : Nat
  kz : Nat
deriving DecidableEq, Repr, Inhabited

/-- The double `for i ... for j ... if X[i,j]: ... break / else: continue /
break` pivot search: the lexicographically first `(i, j)` with `i, j ≥ k` and
`m[i,j]` set. -/
def findPivot (m : Mat) (k : Nat) : Option (Nat × Nat) :=
  (List.range' k (m.length - k)).findSome? fun i =>
    ((List.range' k (width m - k)).find? fun j => getM m i j).map fun j => (i, j)

/-- Swap rows `i` and `k` of `X`, `Z` and `S` (the interim tableau only). -/
def rowSwapTab (t : Tab) (i k : Nat) : Tab :=
  { X := rowSwap t.X i k,
    Z := rowSwap t.Z i k,
    Sb :=
      let a := t.Sb.getD i false
      let b := t.Sb.getD k false
      (t.Sb.set i b).set k a }

/-- Swap columns `j` and `k` of `X`, `Z`, `X2`, `Z2`, and append the
CNOT-implemented SWAP `cnot(j,k); cnot(k,j); cnot(j,k)` to the circuit. -/
def pivotColSwap (st : DState) (j k : Nat) : DState :=
  { st with
    tab := { st.tab with X := colSwap st.tab.X j k, Z := colSwap st.tab.Z j k },
    tab2 := { st.tab2 with X := colSwap st.tab2.X j k, Z := colSwap st.tab2.Z j k },
    qc := st.qc ++ [.cx j k, .cx k j, .cx j k] }

/-- The `for l in range(X.shape[0]) ... sweep_rows(X, Z, S, k, l)` loop of the
X-diagonalization. -/
def sweepLoopX (st : DState) (k : Nat) : Except Err DState :=
  (List.range st.tab.X.length).foldlM
    (fun st2 l =>
      if l = k then pure st2
      else if getM st2.tab.X l k then
        (sweep_rows st2.tab k l).map fun t => { st2 with tab := t }
      else pure st2)
    st

/-- One `k`-iteration of the `diagonalize X` loop. -/
def diagX_step (st : DState) (k : Nat) : Except Err DState :=
  match findPivot st.tab.X k with
  | none => .ok st
  | some (i, j) =>
    let st := { st with kx := k + 1 }
    let st := if i ≠ k then { st with tab := rowSwapTab st.tab i k } else st
    let st := if j ≠ k then pivotColSwap st j k else st
    sweepLoopX st k

/-- The `diagonalize X` loop over `k in range(r)`. -/
def diagX (st : DState) (r : Nat) : Except Err DState :=
  (List.range r).foldlM diagX_step st

/-- The sweep loop of the Z-diagonalization (`if Z[l, k]: sweep_rows`). -/
def sweepLoopZ (st : DState) (k : Nat) : Except Err DState :=
  (List.range st.tab.Z.length).foldlM
    (fun st2 l =>
      if l = k then pure st2
      else if getM st2.tab.Z l k then
        (sweep_rows st2.tab k l).map fun t => { st2 with tab := t }
      else pure st2)
    st

/-- One `k`-iteration of the `diagonalize Z` loop. -/
def diagZ_step (st : DState) (k : Nat) : Except Err DState :=
  match findPivot st.tab.Z k with
  | none => .ok st
  | some (i, j) =>
    let st := { st with kz := k + 1 }
    let st := if i ≠ k then { st with tab := rowSwapTab st.tab i k } else st
    let st := if j ≠ k then pivotColSwap st j k else st
    sweepLoopZ st k

/-- The `diagonalize Z` loop over `k in range(kx, r)`. -/
def diagZ (st : DState) (r : Nat) : Except Err DState :=
  (List.range' st.kx (r - st.kx)).foldlM diagZ_step st

/-- Apply `h` to tableau and copies and append `qc.h(j)`. -/
def hAll (st : DState) (j : Nat) : DState :=
  { st with tab := hOp st.tab j, tab2 := hOp st.tab2 j, qc := st.qc ++ [.h j] }

/-- Apply `cnot` to tableau and copies and append `qc.cnot(i, j)`. -/
def cnotAll (st : DState) (i j : Nat) : DState :=
  { st with
    tab := cnotOp st.tab i j
    tab2 := cnotOp st.tab2 i j
    qc := st.qc ++ [.cx i j] }

/-- Apply `cz` to tableau and copies and append `qc.h(j); qc.cnot(i, j);
qc.h(j)`. -/
def czAll (st : DState) (i j : Nat) : DState :=
  { st with
    tab := czOp st.tab i j
    tab2 := czOp st.tab2 i j
    qc := st.qc ++ [.h j, .cx i j, .h j] }

/-- Apply `s` to tableau and copies and append `qc.s(i)`. -/
def sAll (st : DState) (i : Nat) : DState :=
  { st with tab := sOp st.tab i, tab2 := sOp st.tab2 i, qc := st.qc ++ [.s i] }

/-- The block `# swap diag Z to X`: `for j in range(kx, kz): h(j)`. -/
def stageSwapZX (st : DState) : DState :=
  (List.range' st.kx (st.kz - st.kx)).foldl hAll st

/-- The block `# eliminate off-diag X`: `for i in range(kz): for j in range(kz, cols):
if X[i,j]: cnot(i, j)`. -/
def stageOffX (st : DState) : DState :=
  (List.range st.kz).foldl
    (fun st1 i =>
      (List.range' st1.kz (width st1.tab.X - st1.kz)).foldl
        (fun st2 j => if getM st2.tab.X i j then cnotAll st2 i j else st2)
        st1)
    st

/-- The block `# eliminate off-diag Z`: `for i in range(1, kz): for j in range(i):
if Z[i,j]: cz(i, j)`. -/
def stageOffZ (st : DState) : DState :=
  (List.range' 1 (st.kz - 1)).foldl
    (fun st1 i =>
      (List.range i).foldl
        (fun st2 j => if getM st2.tab.Z i j then czAll st2 i j else st2)
        st1)
    st

/-- The final loop: `for i in range(kz): if Z[i,i]: s(i); h(i)`. -/
def stageFinal (st : DState) : DState :=
  (List.range st.kz).foldl
    (fun st1 i =>
      let st1 := if getM st1.tab.Z i i then sAll st1 i else st1
      hAll st1 i)
    st

/-- The scan collecting `h_to_remove`: `last_h` maps each qubit to the index
of a pending Hadamard; a second Hadamard on the same qubit records both
indices (the source leaves `last_h` pointing at the first one); any other
gate clears `last_h` for the qubits it touches. -/
def hScanGo : (Nat → Option Nat) → List Nat → Nat → List Gate → List Nat
  | _, acc, _, [] => acc
  | lastH, acc, i, gg :: rest =>
    match gg with
    | .h q =>
      match lastH q with
      | some a => hScanGo lastH (acc ++ [a, i]) (i + 1) rest
      | none => hScanGo (fun q2 => if q2 = q then some i else lastH q2) acc (i + 1) rest
    | _ => hScanGo (fun q2 => if q2 ∈ gateQubits gg then none else lastH q2) acc (i + 1) rest

/-- The list `h_to_remove` for a gate list. -/
def hToRemove (qc : List Gate) : List Nat := hScanGo (fun _ => none) [] 0 qc

/-- Stable ascending insertion (for `list.sort()`). -/
def insSorted (a : Nat) : List Nat → List Nat
  | [] => [a]
  | b :: bs => if a ≤ b then a :: b :: bs else b :: insSorted a bs

/-- Embeds `h_to_remove.sort()`. -/
def sortNat (l : List Nat) : List Nat := l.foldr insSorted []

/-- Embeds `list.pop(i)`: remove position `i`, `IndexError` when out of range. -/
def popAt (l : List Gate) (i : Nat) : Except Err (List Gate) :=
  if i < l.length then .ok (l.eraseIdx i) else .error .indexError

/-- The whole Hadamard-removal cleanup at the end of `sim_cliff_diag`:
collect, sort, and pop in descending order. -/
def remove_hh (qc : List Gate) : Except Err (List Gate) :=
  ((sortNat (hToRemove qc)).reverse).foldlM popAt qc

/-- Embeds `np.logical_not(m).all()`. -/
def allFalse (m : Mat) : Bool := m.all fun row => row.all fun b => !b

/-- Gaussian-elimination worker for `rankQ`; embeds
`np.linalg.matrix_rank` on the 0/1 matrix `[X | Z]` (whose real rank the SVD
computes; over a 0/1 matrix that equals the exact rational rank). -/
def rankQAux : Nat → List (List Q) → Nat
  | _, [] => 0
  | 0, _ => 0
  | fuel + 1, row :: rest =>
    match row.findIdx? (fun a => a != (0 : Q)) with
    | none => rankQAux fuel rest
    | some piv =>
      let pv := row.getD piv 0
      1 + rankQAux fuel (rest.map fun r2 =>
        (List.zipWith (fun a b => a - (r2.getD piv 0 / pv) * b) r2 row).eraseIdx piv)

/-- Exact rank of a rational matrix by Gaussian elimination (the fuel is the
row count, which bounds the recursion depth). -/
def rankQ (m : List (List Q)) : Nat := rankQAux m.length m

/-- Embeds `np.linalg.matrix_rank(np.concatenate((X, Z), axis=1))`. -/
def symplecticRank (X Z : Mat) : Nat :=
  rankQ ((X.zipWith (· ++ ·) Z).map fun row => row.map fun b => if b then (1 : Q) else 0)

/-- Embeds `sim_cliff_diag(paulis)`: returns the diagonalizing circuit and the new
(diagonal) Paulis `Pauli((Z2[i], X2[i], 2 if S2[i] else 0))`, or the Python
exception the source would raise. -/
def sim_cliff_diag (paulis : List PauliT) : Except Err (Circuit × List PauliT) := do
  match paulis with
  | [] => throw .indexError
  | _ :: _ =>
    let X : Mat := paulis.map (·.x)
    let Z : Mat := paulis.map (·.z)
    let Sb : List Bool := paulis.map fun _ => false
    let r := symplecticRank X Z
    let st0 : DState := ⟨⟨X, Z, Sb⟩, ⟨X, Z, Sb⟩, [], 0, 0⟩
    let st1 ← diagX st0 r
    let st1 := { st1 with kz := st1.kx }
    let st2 ← diagZ st1 r
    let st3 := stageFinal (stageOffZ (stageOffX (stageSwapZX st2)))
    let qc2 ← remove_hh st3.qc
    if allFalse st3.tab.X then
      if allFalse st3.tab2.X then
        .ok (qc2, (List.range st3.tab2.X.length).map fun i =>
          ⟨getRow st3.tab2.X i, getRow st3.tab2.Z i,
            if st3.tab2.Sb.getD i false then 2 else 0⟩)
      else throw .assertX2Failed
    else throw .assertXFailed

/-! ### Step 3 — `walk_paulis` -/

/-- One character of `Pauli.to_label()`. -/
def labelChar (xb zb : Bool) : Char :=
  if xb && zb then 'Y' else if xb then 'X' else if zb then 'Z' else 'I'

/-- Embeds `Pauli.to_label()`: leftmost character is the highest qubit; a group
phase of `(-i)^phase` prefixes `-i`, `-` or `i`. -/
def toLabel (p : PauliT) : List Char :=
  let body := ((List.range p.z.length).reverse).map fun k => labelChar (getB p.x k) (getB p.z k)
  match p.phase % 4 with
  | 1 => '-' :: 'i' :: body
  | 2 => '-' :: body
  | 3 => 'i' :: body
  | _ => body

/-- The recursive `walk(start)` of `walk_paulis`, with the circuit passed
explicitly and `fuel = num_qubits - len(start)` as the (source-invariant)
termination measure.  Returns the `visited` list and the updated circuit. -/
def walk (dps : List WPauli) (nq : Nat) (fuel : Nat) (start : List Char) (qc : Circuit) :
    List Nat × Circuit :=
  if 'Z' ∈ start then
    let rq := start.reverse.findIdx fun c => c == 'Z'
    if start.length = nq then
      dps.enum.foldl
        (fun acc ip =>
          if toLabel ip.2.primitive == start then
            (acc.1 ++ [ip.1], acc.2 ++ [.rz (2 * ip.2.coeff) rq])
          else acc)
        ([], qc)
    else
      match fuel with
      | 0 => ([], qc)
      | fuel2 + 1 =>
        let vqc1 := walk dps nq fuel2 ('I' :: start) qc
        let qc2 := vqc1.2 ++ [Gate.cx start.length rq]
        let vqc3 := walk dps nq fuel2 ('Z' :: start) qc2
        if vqc3.1 = [] then (vqc1.1, vqc3.2.dropLast)
        else (vqc1.1 ++ vqc3.1, vqc3.2 ++ [Gate.cx start.length rq])
  else if start.length < nq then
    match fuel with
    | 0 => ([], qc)
    | fuel2 + 1 =>
      let vqc1 := walk dps nq fuel2 ('I' :: start) qc
      let vqc2 := walk dps nq fuel2 ('Z' :: start) vqc1.2
      (vqc1.1 ++ vqc2.1, vqc2.2)
  else ([], qc)

/-- Embeds `walk_paulis(diag_paulis)`: walk all non-trivial Paulis starting from the
empty string, then implement the accumulated global phase. -/
def walk_paulis (diag_paulis : List WPauli) : Except Err Circuit :=
  match diag_paulis with
  | [] => .error .indexError
  | p0 :: _ =>
    let nq := p0.primitive.z.length
    let vqc := walk diag_paulis nq nq [] []
    let gp := ((diag_paulis.filter fun p =>
      toLabel p.primitive == List.replicate nq 'I').map (·.coeff)).sum
    if gp ≠ 0 then .ok (vqc.2 ++ [.p (-gp) 0, .x 0, .p (-gp) 0, .x 0])
    else .ok vqc.2

/-! ### Step 4 — Trotterization and the master circuit -/

/-- The constant `n = 2` Trotter steps. -/
def n : Nat := 2

/-- Embeds `Gate.inverse()` as qiskit computes it for the gates at hand; in
particular the inverse of `s` is `sdg`. -/
def gate_inverse : Gate → Gate
  | .h q => .h q
  | .s q => .sdg q
  | .sdg q => .s q
  | .x q => .x q
  | .rz theta q => .rz (-theta) q
  | .p theta q => .p (-theta) q
  | .cx c t => .cx c t

/-- Embeds `QuantumCircuit.inverse()`: reverse the gate order and invert each gate. -/
def circ_inverse (qc : Circuit) : Circuit := (qc.reverse).map gate_inverse

/-- The list `new_paulis`: pair each original weighted Pauli with its diagonalized
image, divide the coefficient by `n` and flip its sign when the diagonal
Pauli carries phase `2` (`Pauli((dp.z, dp.x, 0))`, coefficient
`(p.coeff/n) * (1 if dp.phase == 0 else -1)`). -/
def new_paulis (paulis : List WPauli) (diag_paulis : List PauliT) : List WPauli :=
  (paulis.zip diag_paulis).map fun pr =>
    ⟨⟨pr.2.x, pr.2.z, 0⟩, (pr.1.coeff / (n : Q)) * (if pr.2.phase == 0 then 1 else -1)⟩

/-- The per-group circuits: diagonalizing circuit, then the diagonal-Pauli
circuit, then the inverse of the diagonalizing circuit
(`diag_qc.compose(diag_paulis_qc).compose(diag_qc.inverse())`). -/
def circuits_of (subsets : List (List WPauli)) : Except Err (List Circuit) :=
  subsets.mapM fun ps => do
    let pr ← sim_cliff_diag (ps.map (·.primitive))
    let wqc ← walk_paulis (new_paulis ps pr.2)
    pure (pr.1 ++ wqc ++ circ_inverse pr.1)

/-- The hand-picked group ordering of the final cell. -/
def ord : List Nat := [6, 7, 9, 1, 11, 18, 4, 13, 12, 0, 19, 15, 17, 3, 5, 2, 20, 10, 8, 16, 14]

/-- The `master_circuit` loop: starting from the empty circuit, compose
`circuits[i]` for `i` in `ord`, `n` times over. -/
def master_circuit (circuits : List Circuit) : Except Err Circuit :=
  (List.range n).foldlM
    (fun acc _ =>
      ord.foldlM
        (fun acc2 i =>
          if h : i < circuits.length then pure (acc2 ++ circuits.get ⟨i, h⟩)
          else throw Err.indexError)
        acc)
    []

/-- Steps 2–4 combined: group circuits, then the master circuit. -/
def build_master (subsets : List (List WPauli)) : Except Err Circuit := do
  let cs ← circuits_of subsets
  master_circuit cs

/-- Embeds `QuantumCircuit.depth()`: longest gate path, tracked as a running level
per qubit. -/
def depth (qc : Circuit) : Nat :=
  (qc.foldl
    (fun acc gg =>
      let m := ((gateQubits gg).map acc.1).foldl Nat.max 0 + 1
      (fun q => if q ∈ gateQubits gg then m else acc.1 q, Nat.max acc.2 m))
    ((fun _ => 0 : Nat → Nat), 0)).2

/-- The whole script, from the input file's text to the emitted circuit and
its printed depth (the printed approximation error is a further pure function
of the same circuit, not modelled numerically). -/
def run_script (content : String) : Except Err (Circuit × Nat) := do
  let ps ← match parse_file content with
    | some ps => pure ps
    | none => throw Err.parseError
  let mc ← build_master (commuting_subsets ps)
  pure (mc, depth mc)

/-- The success test `Except.isOk` as a plain boolean (kernel-evaluable). -/
def exceptOk {α : Type} : Except Err α → Bool
  | .ok _ => true
  | .error _ => false

instance {α : Type} [DecidableEq α] : DecidableEq (Except Err α) := fun a b =>
  match a, b with
  | .ok u, .ok v =>
    if h : u = v then isTrue (by rw [h]) else isFalse (by intro hc; cases hc; exact h rfl)
  | .ok _, .error _ => isFalse (by intro hc; cases hc)
  | .error _, .ok _ => isFalse (by intro hc; cases hc)
  | .error e1, .error e2 =>
    if h : e1 = e2 then isTrue (by rw [h]) else isFalse (by intro hc; cases hc; exact h rfl)

/-! ### Generic inversion and invariance lemmas -/

theorem except_bind_ok {α β : Type} {e : Except Err α} {f : α → Except Err β} {r : β}
    (h : (e >>= f) = .ok r) : ∃ a, e = .ok a ∧ f a = .ok r := by
  cases e with
  | ok a => exact ⟨a, rfl, h⟩
  | error msg => simp [Bind.bind, Except.bind] at h

theorem ok_bind {α β : Type} (a : α) (f : α → Except Err β) :
    (Except.ok a : Except Err α) >>= f = f a := rfl

theorem except_map_ok {α β : Type} {e : Except Err α} {f : α → β} {r : β}
    (h : Except.map f e = .ok r) : ∃ a, e = .ok a ∧ f a = r := by
  cases e with
  | ok a =>
    refine ⟨a, rfl, ?_⟩
    simpa [Except.map] using h
  | error msg => simp [Except.map] at h

theorem foldlM_except_inv {α σ : Type} (f : σ → α → Except Err σ) (P : σ → Prop)
    (hf : ∀ s a s2, f s a = .ok s2 → P s → P s2) :
    ∀ (l : List α) (s s2 : σ), l.foldlM f s = .ok s2 → P s → P s2 := by
  intro l
  induction l with
  | nil =>
    intro s s2 h hs
    simp only [List.foldlM_nil, pure, Except.pure, Except.ok.injEq] at h
    exact h ▸ hs
  | cons a as ih =>
    intro s s2 h hs
    rw [List.foldlM_cons] at h
    obtain ⟨s1, h1, h2⟩ := except_bind_ok h
    exact ih s1 s2 h2 (hf s a s1 h1 hs)

theorem foldl_inv {α σ : Type} (f : σ → α → σ) (P : σ → Prop)
    (hf : ∀ s a, P s → P (f s a)) :
    ∀ (l : List α) (s : σ), P s → P (l.foldl f s) := by
  intro l
  induction l with
  | nil => intro s hs; simpa using hs
  | cons a as ih => intro s hs; exact ih (f s a) (hf s a hs)

theorem mapM_except_ok {α β : Type} [Inhabited α] [Inhabited β] (f : α → Except Err β) :
    ∀ (xs : List α) (ys : List β), xs.mapM f = .ok ys →
      ys.length = xs.length ∧
        ∀ k, k < xs.length → f (xs.getD k default) = .ok (ys.getD k default) := by
  intro xs
  induction xs with
  | nil =>
    intro ys h
    simp only [List.mapM_nil, pure, Except.pure] at h
    cases h
    exact ⟨rfl, fun k hk => absurd hk (by simp)⟩
  | cons x xs ih =>
    intro ys h
    rw [List.mapM_cons] at h
    obtain ⟨y, hy, h2⟩ := except_bind_ok h
    obtain ⟨ys2, hys2, h3⟩ := except_bind_ok h2
    simp only [pure, Except.pure, Except.ok.injEq] at h3
    subst h3
    obtain ⟨hlen, hidx⟩ := ih ys2 hys2
    refine ⟨by simp [hlen], fun k hk => ?_⟩
    cases k with
    | zero => simpa using hy
    | succ k2 =>
      simp only [List.getD_cons_succ]
      exact hidx k2 (by simpa using hk)

/-! ### C4 — the greedy grouping is a commuting partition -/

/-- The symplectic overlap is symmetric (zip-swap). -/
theorem filter_zip_swap (l1 l2 : List Bool) :
    ((l1.zip l2).filter fun pr => pr.1 && pr.2).length =
      ((l2.zip l1).filter fun pr => pr.1 && pr.2).length := by
  induction l1 generalizing l2 with
  | nil => cases l2 <;> rfl
  | cons a as ih =>
    cases l2 with
    | nil => rfl
    | cons b bs =>
      simp only [List.zip_cons_cons, List.filter_cons]
      rcases a <;> rcases b <;> simp [ih bs]

theorem symp_comm (a b : PauliT) : symp a b = symp b a := by
  unfold symp
  rw [filter_zip_swap a.x b.z, filter_zip_swap a.z b.x]
  omega

theorem commutes_comm (a b : PauliT) : commutes a b = commutes b a := by
  unfold commutes
  rw [symp_comm]

theorem commutes_self (a : PauliT) : commutes a a = true := by
  unfold commutes symp
  rw [filter_zip_swap a.x a.z]
  simp [Nat.add_mul_mod_self_left, Nat.two_mul]
  omega

/-- Where a subset of `insert_greedy gs p` can come from: untouched, the
first all-commuting subset with `p` appended, or the fresh singleton. -/
theorem insert_greedy_cases (p : WPauli) :
    ∀ (gs : List (List WPauli)) g2, g2 ∈ insert_greedy gs p →
      g2 ∈ gs ∨
        (∃ g1, g1 ∈ gs ∧ g1.all (fun q => commutes p.primitive q.primitive) = true ∧
          g2 = g1 ++ [p]) ∨
        g2 = [p] := by
  intro gs
  induction gs with
  | nil =>
    intro g2 hg2
    simp only [insert_greedy, List.mem_singleton] at hg2
    exact Or.inr (Or.inr hg2)
  | cons g rest ih =>
    intro g2 hg2
    by_cases hall : g.all (fun q => commutes p.primitive q.primitive) = true
    · simp only [insert_greedy, if_pos hall, List.mem_cons] at hg2
      rcases hg2 with h | h
      · exact Or.inr (Or.inl ⟨g, List.mem_cons_self g rest, hall, h⟩)
      · exact Or.inl (List.mem_cons_of_mem g h)
    · simp only [insert_greedy, if_neg hall, List.mem_cons] at hg2
      rcases hg2 with h | h
      · exact Or.inl (h ▸ List.mem_cons_self g rest)
      · rcases ih g2 h with h1 | h1 | h1
        · exact Or.inl (List.mem_cons_of_mem g h1)
        · obtain ⟨g1, hg1, hc, he⟩ := h1
          exact Or.inr (Or.inl ⟨g1, List.mem_cons_of_mem g hg1, hc, he⟩)
        · exact Or.inr (Or.inr h1)

/-- The step `insert_greedy` adds exactly `p` to the partition, as a multiset. -/
theorem join_insert_greedy (p : WPauli) :
    ∀ gs : List (List WPauli), (insert_greedy gs p).flatten.Perm (gs.flatten ++ [p]) := by
  intro gs
  induction gs with
  | nil => simp [insert_greedy]
  | cons g rest ih =>
    by_cases hall : g.all (fun q => commutes p.primitive q.primitive) = true
    · simp only [insert_greedy, if_pos hall, List.flatten_cons, List.append_assoc]
      exact List.Perm.append_left g List.perm_append_comm
    · simp only [insert_greedy, if_neg hall, List.flatten_cons, List.append_assoc]
      exact List.Perm.append_left g ih

theorem commuting_subsets_append (ps : List WPauli) (p : WPauli) :
    commuting_subsets (ps ++ [p]) = insert_greedy (commuting_subsets ps) p := by
  simp [commuting_subsets, List.foldl_append]

/-- The greedy grouping partitions the input into non-empty, order-preserving,
pairwise-commuting subsets (shared worker). -/
theorem commuting_subsets_props (ps : List WPauli) :
    ((commuting_subsets ps).flatten).Perm ps ∧
      ∀ g1 ∈ commuting_subsets ps, g1 ≠ [] ∧ g1.Sublist ps ∧
        ∀ a ∈ g1, ∀ b ∈ g1, commutes a.primitive b.primitive = true := by
  induction ps using List.reverseRecOn with
  | nil => exact ⟨by simp [commuting_subsets], by simp [commuting_subsets]⟩
  | append_singleton ps p ih =>
    rw [commuting_subsets_append]
    obtain ⟨ihperm, ihsub⟩ := ih
    constructor
    · exact (join_insert_greedy p (commuting_subsets ps)).trans (ihperm.append_right [p])
    · intro g2 hg2
      rcases insert_greedy_cases p (commuting_subsets ps) g2 hg2 with h | h | h
      · obtain ⟨hne, hsub, hcomm⟩ := ihsub g2 h
        exact ⟨hne, hsub.trans (List.sublist_append_left ps [p]), hcomm⟩
      · obtain ⟨g1, hg1, hall, he⟩ := h
        obtain ⟨hne, hsub, hcomm⟩ := ihsub g1 hg1
        subst he
        refine ⟨by simp, hsub.append (List.Sublist.refl [p]), ?_⟩
        intro a ha b hb
        rcases List.mem_append.mp ha with ha1 | ha1 <;>
          rcases List.mem_append.mp hb with hb1 | hb1
        · exact hcomm a ha1 b hb1
        · rw [List.mem_singleton] at hb1
          subst hb1
          have := (List.all_eq_true.mp hall) a ha1
          rw [commutes_comm]
          simpa using this
        · rw [List.mem_singleton] at ha1
          subst ha1
          have := (List.all_eq_true.mp hall) b hb1
          simpa using this
        · rw [List.mem_singleton] at ha1
          rw [List.mem_singleton] at hb1
          subst ha1; subst hb1
          exact commutes_self _
      · subst h
        refine ⟨by simp, List.sublist_append_right ps [p], ?_⟩
        intro a ha b hb
        rw [List.mem_singleton] at ha
        rw [List.mem_singleton] at hb
        subst ha; subst hb
        exact commutes_self _

/-- C4: after the greedy grouping loop, `commuting_subsets` is a partition of
the parsed Pauli terms — the subsets join back to a permutation of the input,
each subset is non-empty and keeps the input (first-fit) order as a sublist,
and inside every subset every pair of terms commutes. -/
theorem claim_C4 (ps : List WPauli) :
    ((commuting_subsets ps).flatten).Perm ps ∧
      ∀ g1 ∈ commuting_subsets ps, g1 ≠ [] ∧ g1.Sublist ps ∧
        ∀ a ∈ g1, ∀ b ∈ g1, commutes a.primitive b.primitive = true :=
  commuting_subsets_props ps


/-! ### C10 — `sweep_rows` cannot hit the `Unexpected result` branch on
commuting rows -/

/-- Rows `i` and `j` of the tableau represent two commuting Pauli operators:
their symplectic overlap, summed over the matrix width, is even. -/
def rowsCommute (t : Tab) (i j : Nat) : Prop :=
  ((List.range (width t.X)).map fun k =>
    bi (getM t.X i k && getM t.Z j k) + bi (getM t.Z i k && getM t.X j k)).sum % 2 = 0

instance (t : Tab) (i j : Nat) : Decidable (rowsCommute t i j) := by
  unfold rowsCommute
  infer_instance

/-- Pointwise, `g` has the parity of the symplectic overlap term. -/
theorem g_parity (b1 b2 b3 b4 : Bool) :
    g b1 b2 b3 b4 % 2 = (bi (b1 && b4) + bi (b2 && b3)) % 2 := by
  rcases b1 <;> rcases b2 <;> rcases b3 <;> rcases b4 <;> decide

/-- Summing functions that agree mod 2 gives sums that agree mod 2. -/
theorem sum_emod_congr (l : List Nat) (f f2 : Nat → Int)
    (h : ∀ k ∈ l, f k % 2 = f2 k % 2) :
    (l.map f).sum % 2 = (l.map f2).sum % 2 := by
  induction l with
  | nil => rfl
  | cons a as ih =>
    simp only [List.map_cons, List.sum_cons]
    rw [Int.add_emod, ih fun k hk => h k (List.mem_cons_of_mem a hk),
      h a (List.mem_cons_self a as), ← Int.add_emod]

/-! Strengthening for C10: the pairwise-commutation invariant survives every
row swap, column swap and row sweep of the diagonalization, so `sweep_rows`
never raises on a pairwise-commuting input. -/

/-- All rows of both tableau matrices have width `w` and the matrices have
equally many rows. -/
def TabWF (t : Tab) (w : Nat) : Prop :=
  t.X.length = t.Z.length ∧ (∀ row ∈ t.X, row.length = w) ∧
    ∀ row ∈ t.Z, row.length = w

/-- Every pair of tableau rows has even symplectic overlap over width `w`. -/
def PWc (t : Tab) (w : Nat) : Prop :=
  ∀ i j, ((List.range w).map fun k =>
    bi (getM t.X i k && getM t.Z j k) + bi (getM t.Z i k && getM t.X j k)).sum % 2 = 0

theorem sum_range_succ_shift (m : Nat) (f : Nat → Int) :
    ((List.range (m + 1)).map f).sum = f 0 + ((List.range m).map fun k => f (k + 1)).sum := by
  rw [List.range_succ_eq_map, List.map_cons, List.sum_cons, List.map_map]
  rfl

theorem filterzip_len_eq_sum :
    ∀ (l1 l2 : List Bool), l1.length = l2.length →
      ((((l1.zip l2).filter fun pr => pr.1 && pr.2).length : Int)) =
        ((List.range l1.length).map fun k => bi (getB l1 k && getB l2 k)).sum := by
  intro l1
  induction l1 with
  | nil => intro l2 _; rfl
  | cons a l1 ih =>
    intro l2 hlen
    cases l2 with
    | nil => cases hlen
    | cons b l2 =>
      simp only [List.length_cons] at hlen
      rw [List.length_cons, sum_range_succ_shift]
      have h0 : getB (a :: l1) 0 = a := rfl
      have hs : ∀ k, getB (a :: l1) (k + 1) = getB l1 k := fun k => rfl
      have hs2 : ∀ k, getB (b :: l2) (k + 1) = getB l2 k := fun k => rfl
      simp only [h0, hs, hs2]
      rw [← ih l2 (by omega)]
      have hzip : (a :: l1).zip (b :: l2) = (a, b) :: l1.zip l2 := rfl
      have hb0 : getB (b :: l2) 0 = b := rfl
      rw [hzip, List.filter_cons, hb0]
      cases hab : (a && b) <;> simp [hab, bi]
      omega

/-- For width-`w` Paulis, even row overlap is exactly `commutes`. -/
theorem commutes_iff_sum (p q : PauliT) (w : Nat)
    (hp : p.x.length = w ∧ p.z.length = w) (hq : q.x.length = w ∧ q.z.length = w) :
    (((List.range w).map fun k =>
      bi (getB p.x k && getB q.z k) + bi (getB p.z k && getB q.x k)).sum % 2 = 0) ↔
      commutes p q = true := by
  have h1 := filterzip_len_eq_sum p.x q.z (by omega)
  have h2 := filterzip_len_eq_sum p.z q.x (by omega)
  rw [hp.1] at h1
  rw [hp.2] at h2
  have hsplit : ((List.range w).map fun k =>
      bi (getB p.x k && getB q.z k) + bi (getB p.z k && getB q.x k)).sum =
      ((List.range w).map fun k => bi (getB p.x k && getB q.z k)).sum +
        ((List.range w).map fun k => bi (getB p.z k && getB q.x k)).sum := by
    induction (List.range w) with
    | nil => rfl
    | cons a l ih =>
      simp only [List.map_cons, List.sum_cons, ih]
      ring
  rw [hsplit, ← h1, ← h2]
  unfold commutes symp
  constructor
  · intro h
    have : (((p.x.zip q.z).filter fun pr => pr.1 && pr.2).length +
        ((p.z.zip q.x).filter fun pr => pr.1 && pr.2).length) % 2 = 0 := by omega
    simpa [Nat.beq_eq_true_eq] using this
  · intro h
    have h3 : (((p.x.zip q.z).filter fun pr => pr.1 && pr.2).length +
        ((p.z.zip q.x).filter fun pr => pr.1 && pr.2).length) % 2 = 0 := by
      simpa [Nat.beq_eq_true_eq] using h
    omega

/-- The index transposition performed by a row or column swap. -/
def swp (j k l : Nat) : Nat := if l = k then j else if l = j then k else l

theorem swp_invol (j k l : Nat) : swp j k (swp j k l) = l := by
  simp only [swp]
  split_ifs <;> omega

theorem swp_lt (j k w l : Nat) (hj : j < w) (hk : k < w) (hl : l < w) :
    swp j k l < w := by
  simp only [swp]
  split_ifs <;> omega

theorem swp_inj (j k : Nat) : Function.Injective (swp j k) := by
  intro a b h
  simp only [swp] at h
  split_ifs at h <;> omega

theorem getB_set_self (row : List Bool) (j : Nat) (b : Bool) (h : j < row.length) :
    getB (row.set j b) j = b := by
  unfold getB
  rw [List.getD_eq_getElem _ _ (by simpa using h)]
  exact List.getElem_set_self _

theorem getB_set_ne (row : List Bool) (j c : Nat) (b : Bool) (h : c ≠ j) :
    getB (row.set j b) c = getB row c := by
  unfold getB
  rw [List.getD_eq_getElem?_getD, List.getD_eq_getElem?_getD,
    List.getElem?_set_ne (fun hc => h hc.symm)]

theorem getRow_set_self (m : Mat) (i : Nat) (v : List Bool) (h : i < m.length) :
    getRow (m.set i v) i = v := by
  unfold getRow
  rw [List.getD_eq_getElem _ _ (by simpa using h)]
  exact List.getElem_set_self _

theorem getRow_set_ne (m : Mat) (i l : Nat) (v : List Bool) (h : l ≠ i) :
    getRow (m.set i v) l = getRow m l := by
  unfold getRow
  rw [List.getD_eq_getElem?_getD, List.getD_eq_getElem?_getD,
    List.getElem?_set_ne (fun hc => h hc.symm)]

theorem getRow_mem (m : Mat) (i : Nat) (h : i < m.length) : getRow m i ∈ m := by
  unfold getRow
  rw [List.getD_eq_getElem _ _ (by simpa using h)]
  exact List.getElem_mem _

theorem getRow_rowSwap (m : Mat) (i k : Nat) (hi : i < m.length) (hk : k < m.length)
    (l : Nat) : getRow (rowSwap m i k) l = getRow m (swp i k l) := by
  unfold rowSwap swp
  by_cases hlk : l = k
  · subst hlk
    rw [if_pos rfl, getRow_set_self _ _ _ (by simpa using hk)]
  · rw [if_neg hlk, getRow_set_ne _ _ _ _ hlk]
    by_cases hli : l = i
    · subst hli
      rw [if_pos rfl, getRow_set_self _ _ _ hi]
    · rw [if_neg hli, getRow_set_ne _ _ _ _ hli]

theorem length_rowSwap (m : Mat) (i k : Nat) : (rowSwap m i k).length = m.length := by
  unfold rowSwap
  simp

theorem mem_rowSwap (m : Mat) (i k : Nat) (hi : i < m.length) (hk : k < m.length)
    (row : List Bool) (h : row ∈ rowSwap m i k) : row ∈ m := by
  unfold rowSwap at h
  rcases List.mem_or_eq_of_mem_set h with h2 | h2
  · rcases List.mem_or_eq_of_mem_set h2 with h3 | h3
    · exact h3
    · rw [h3]
      exact getRow_mem m k hk
  · rw [h2]
    exact getRow_mem m i hi

/-- The per-row effect of `colSwap`. -/
def colRowF (j k : Nat) (row : List Bool) : List Bool :=
  (row.set j (getB row k)).set k (getB row j)

theorem colSwap_eq_map (m : Mat) (j k : Nat) : colSwap m j k = m.map (colRowF j k) := rfl

theorem colRowF_nil (j k : Nat) : colRowF j k [] = [] := by
  unfold colRowF
  simp

theorem length_colRowF (j k : Nat) (row : List Bool) :
    (colRowF j k row).length = row.length := by
  unfold colRowF
  simp

theorem getB_colRowF (row : List Bool) (w j k : Nat) (hlen : row.length = w)
    (hj : j < w) (hk : k < w) (c : Nat) :
    getB (colRowF j k row) c = getB row (swp j k c) := by
  unfold colRowF swp
  by_cases hck : c = k
  · subst hck
    rw [if_pos rfl, getB_set_self _ _ _ (by simp [hlen]; omega)]
  · rw [if_neg hck, getB_set_ne _ _ _ _ hck]
    by_cases hcj : c = j
    · subst hcj
      rw [if_pos rfl, getB_set_self _ _ _ (by omega)]
    · rw [if_neg hcj, getB_set_ne _ _ _ _ hcj]

theorem getRow_colSwap (m : Mat) (j k l : Nat) :
    getRow (colSwap m j k) l = colRowF j k (getRow m l) := by
  rw [colSwap_eq_map]
  unfold getRow
  rw [List.getD_eq_getElem?_getD, List.getD_eq_getElem?_getD, List.getElem?_map]
  cases m[l]? with
  | none => exact (colRowF_nil j k).symm
  | some row => rfl

theorem getM_colSwap (m : Mat) (w j k : Nat) (hw : ∀ row ∈ m, row.length = w)
    (hj : j < w) (hk : k < w) (l c : Nat) :
    getM (colSwap m j k) l c = getM m l (swp j k c) := by
  unfold getM
  rw [getRow_colSwap]
  by_cases hl : l < m.length
  · exact getB_colRowF _ w j k (hw _ (getRow_mem m l hl)) hj hk c
  · have hnil : getRow m l = [] := by
      unfold getRow
      exact List.getD_eq_default _ _ (by omega)
    rw [hnil, colRowF_nil]
    simp [getB]

theorem map_swp_perm_range (w j k : Nat) (hj : j < w) (hk : k < w) :
    ((List.range w).map (swp j k)).Perm (List.range w) := by
  have hnd : ((List.range w).map (swp j k)).Nodup :=
    (List.nodup_range w).map (swp_inj j k)
  refine (List.perm_ext_iff_of_nodup hnd (List.nodup_range w)).2 fun x => ?_
  simp only [List.mem_map, List.mem_range]
  constructor
  · rintro ⟨a, ha, rfl⟩
    exact swp_lt j k w a hj hk ha
  · intro hx
    exact ⟨swp j k x, swp_lt j k w x hj hk hx, swp_invol j k x⟩

theorem sum_map_swp (w j k : Nat) (hj : j < w) (hk : k < w) (f : Nat → Int) :
    ((List.range w).map fun c => f (swp j k c)).sum = ((List.range w).map f).sum := by
  have h1 : ((List.range w).map fun c => f (swp j k c)) =
      ((List.range w).map (swp j k)).map f := by
    rw [List.map_map]
    rfl
  rw [h1]
  exact ((map_swp_perm_range w j k hj hk).map f).sum_eq

theorem TabWF_rowSwapTab (t : Tab) (w i k : Nat) (hwf : TabWF t w)
    (hi : i < t.X.length) (hk : k < t.X.length) : TabWF (rowSwapTab t i k) w := by
  obtain ⟨hlen, hX, hZ⟩ := hwf
  have hiZ : i < t.Z.length := by omega
  have hkZ : k < t.Z.length := by omega
  refine ⟨?_, ?_, ?_⟩
  · show (rowSwap t.X i k).length = (rowSwap t.Z i k).length
    rw [length_rowSwap, length_rowSwap]
    exact hlen
  · intro row hrow
    exact hX row (mem_rowSwap t.X i k hi hk row hrow)
  · intro row hrow
    exact hZ row (mem_rowSwap t.Z i k hiZ hkZ row hrow)

theorem length_rowSwapTab (t : Tab) (i k : Nat) :
    (rowSwapTab t i k).X.length = t.X.length := length_rowSwap t.X i k

theorem PWc_rowSwapTab (t : Tab) (w i k : Nat) (hwf : TabWF t w) (hpw : PWc t w)
    (hi : i < t.X.length) (hk : k < t.X.length) : PWc (rowSwapTab t i k) w := by
  have hlen := hwf.1
  have hiZ : i < t.Z.length := by omega
  have hkZ : k < t.Z.length := by omega
  intro l1 l2
  have heq : (fun c => bi (getM (rowSwapTab t i k).X l1 c && getM (rowSwapTab t i k).Z l2 c) +
      bi (getM (rowSwapTab t i k).Z l1 c && getM (rowSwapTab t i k).X l2 c)) =
      fun c => bi (getM t.X (swp i k l1) c && getM t.Z (swp i k l2) c) +
        bi (getM t.Z (swp i k l1) c && getM t.X (swp i k l2) c) := by
    funext c
    unfold getM
    rw [show (rowSwapTab t i k).X = rowSwap t.X i k from rfl,
      show (rowSwapTab t i k).Z = rowSwap t.Z i k from rfl,
      getRow_rowSwap t.X i k hi hk, getRow_rowSwap t.Z i k hiZ hkZ,
      getRow_rowSwap t.X i k hi hk, getRow_rowSwap t.Z i k hiZ hkZ]
  rw [heq]
  exact hpw (swp i k l1) (swp i k l2)

theorem TabWF_colSwap (t t2 : Tab) (w j k : Nat) (hwf : TabWF t w)
    (hX : t2.X = colSwap t.X j k) (hZ : t2.Z = colSwap t.Z j k) : TabWF t2 w := by
  obtain ⟨hlen, hXw, hZw⟩ := hwf
  refine ⟨?_, ?_, ?_⟩
  · rw [hX, hZ, colSwap_eq_map, colSwap_eq_map, List.length_map, List.length_map]
    exact hlen
  · intro row hrow
    rw [hX, colSwap_eq_map] at hrow
    rcases List.mem_map.1 hrow with ⟨row0, hmem, rfl⟩
    rw [length_colRowF]
    exact hXw row0 hmem
  · intro row hrow
    rw [hZ, colSwap_eq_map] at hrow
    rcases List.mem_map.1 hrow with ⟨row0, hmem, rfl⟩
    rw [length_colRowF]
    exact hZw row0 hmem

theorem PWc_colSwap (t t2 : Tab) (w j k : Nat) (hwf : TabWF t w) (hpw : PWc t w)
    (hj : j < w) (hk : k < w)
    (hX : t2.X = colSwap t.X j k) (hZ : t2.Z = colSwap t.Z j k) : PWc t2 w := by
  intro l1 l2
  have heq : (fun c => bi (getM t2.X l1 c && getM t2.Z l2 c) +
      bi (getM t2.Z l1 c && getM t2.X l2 c)) =
      fun c => (fun c2 => bi (getM t.X l1 c2 && getM t.Z l2 c2) +
        bi (getM t.Z l1 c2 && getM t.X l2 c2)) (swp j k c) := by
    funext c
    rw [hX, hZ, getM_colSwap t.X w j k hwf.2.1 hj hk, getM_colSwap t.Z w j k hwf.2.2 hj hk,
      getM_colSwap t.X w j k hwf.2.1 hj hk, getM_colSwap t.Z w j k hwf.2.2 hj hk]
  rw [heq]
  exact Eq.trans (congrArg (· % 2) (sum_map_swp w j k hj hk
    (fun c2 => bi (getM t.X l1 c2 && getM t.Z l2 c2) +
      bi (getM t.Z l1 c2 && getM t.X l2 c2)))) (hpw l1 l2)

theorem getB_xorRows : ∀ (a b : List Bool), a.length = b.length → ∀ c,
    getB (xorRows a b) c = xor (getB a c) (getB b c) := by
  intro a
  induction a with
  | nil =>
    intro b hb c
    cases b with
    | nil => simp [xorRows, getB]
    | cons x xs => cases hb
  | cons x xs ih =>
    intro b hb c
    cases b with
    | nil => cases hb
    | cons y ys =>
      simp only [List.length_cons] at hb
      cases c with
      | zero => rfl
      | succ c2 =>
        show getB (xorRows xs ys) c2 = _
        rw [ih ys (by omega) c2]
        rfl

theorem sweep_term1 (xj zj xi zi xm zm : Bool) :
    (bi (xor xj xi && zm) + bi (xor zj zi && xm)) % 2 =
      ((bi (xj && zm) + bi (zj && xm)) + (bi (xi && zm) + bi (zi && xm))) % 2 := by
  rcases xj <;> rcases zj <;> rcases xi <;> rcases zi <;> rcases xm <;> rcases zm <;> decide

theorem sweep_term2 (xm zm xj zj xi zi : Bool) :
    (bi (xm && xor zj zi) + bi (zm && xor xj xi)) % 2 =
      ((bi (xm && zj) + bi (zm && xj)) + (bi (xm && zi) + bi (zm && xi))) % 2 := by
  rcases xj <;> rcases zj <;> rcases xi <;> rcases zi <;> rcases xm <;> rcases zm <;> decide

theorem sweep_term3 (xj zj xi zi : Bool) :
    (bi (xor xj xi && xor zj zi) + bi (xor zj zi && xor xj xi)) % 2 = 0 := by
  rcases xj <;> rcases zj <;> rcases xi <;> rcases zi <;> decide

theorem sum_emod_split (l : List Nat) (f f1 f2 : Nat → Int)
    (h : ∀ k ∈ l, f k % 2 = (f1 k + f2 k) % 2) :
    (l.map f).sum % 2 = ((l.map f1).sum + (l.map f2).sum) % 2 := by
  induction l with
  | nil => rfl
  | cons a as ih =>
    simp only [List.map_cons, List.sum_cons]
    have hfa := h a (List.mem_cons_self a as)
    have hih := ih fun k hk => h k (List.mem_cons_of_mem a hk)
    omega

theorem sum_emod_zero (l : List Nat) (f : Nat → Int) (h : ∀ k ∈ l, f k % 2 = 0) :
    (l.map f).sum % 2 = 0 := by
  induction l with
  | nil => rfl
  | cons a as ih =>
    simp only [List.map_cons, List.sum_cons]
    have hfa := h a (List.mem_cons_self a as)
    have hih := ih fun k hk => h k (List.mem_cons_of_mem a hk)
    omega

theorem TabWF_sweepXors (t : Tab) (w i j : Nat) (hwf : TabWF t w)
    (hi : i < t.X.length) (hj : j < t.X.length) : TabWF (sweepXors t i j) w := by
  obtain ⟨hlen, hXw, hZw⟩ := hwf
  have hiZ : i < t.Z.length := by omega
  have hjZ : j < t.Z.length := by omega
  refine ⟨?_, ?_, ?_⟩
  · show (t.X.set j _).length = (t.Z.set j _).length
    simpa using hlen
  · intro row hrow
    rcases List.mem_or_eq_of_mem_set hrow with h2 | h2
    · exact hXw row h2
    · rw [h2]
      show (List.zipWith Bool.xor _ _).length = w
      rw [List.length_zipWith, hXw _ (getRow_mem t.X j hj), hXw _ (getRow_mem t.X i hi)]
      omega
  · intro row hrow
    rcases List.mem_or_eq_of_mem_set hrow with h2 | h2
    · exact hZw row h2
    · rw [h2]
      show (List.zipWith Bool.xor _ _).length = w
      rw [List.length_zipWith, hZw _ (getRow_mem t.Z j hjZ), hZw _ (getRow_mem t.Z i hiZ)]
      omega

theorem PWc_sweepXors (t : Tab) (w i j : Nat) (hwf : TabWF t w) (hpw : PWc t w)
    (hi : i < t.X.length) (hj : j < t.X.length) : PWc (sweepXors t i j) w := by
  have hlen := hwf.1
  have hiZ : i < t.Z.length := by omega
  have hjZ : j < t.Z.length := by omega
  have hXlen : (getRow t.X j).length = (getRow t.X i).length := by
    rw [hwf.2.1 _ (getRow_mem t.X j hj), hwf.2.1 _ (getRow_mem t.X i hi)]
  have hZlen : (getRow t.Z j).length = (getRow t.Z i).length := by
    rw [hwf.2.2 _ (getRow_mem t.Z j hjZ), hwf.2.2 _ (getRow_mem t.Z i hiZ)]
  have hXrow : ∀ l, getRow (sweepXors t i j).X l =
      if l = j then xorRows (getRow t.X j) (getRow t.X i) else getRow t.X l := by
    intro l
    show getRow (t.X.set j _) l = _
    by_cases hl : l = j
    · subst hl
      rw [if_pos rfl, getRow_set_self t.X l _ hj]
    · rw [if_neg hl, getRow_set_ne t.X j l _ hl]
  have hZrow : ∀ l, getRow (sweepXors t i j).Z l =
      if l = j then xorRows (getRow t.Z j) (getRow t.Z i) else getRow t.Z l := by
    intro l
    show getRow (t.Z.set j _) l = _
    by_cases hl : l = j
    · subst hl
      rw [if_pos rfl, getRow_set_self t.Z l _ hjZ]
    · rw [if_neg hl, getRow_set_ne t.Z j l _ hl]
  have hgX : ∀ c, getM (sweepXors t i j).X j c = xor (getM t.X j c) (getM t.X i c) := by
    intro c
    unfold getM
    rw [hXrow j, if_pos rfl, getB_xorRows _ _ hXlen]
  have hgZ : ∀ c, getM (sweepXors t i j).Z j c = xor (getM t.Z j c) (getM t.Z i c) := by
    intro c
    unfold getM
    rw [hZrow j, if_pos rfl, getB_xorRows _ _ hZlen]
  have hgX2 : ∀ l, l ≠ j → ∀ c, getM (sweepXors t i j).X l c = getM t.X l c := by
    intro l hl c
    unfold getM
    rw [hXrow l, if_neg hl]
  have hgZ2 : ∀ l, l ≠ j → ∀ c, getM (sweepXors t i j).Z l c = getM t.Z l c := by
    intro l hl c
    unfold getM
    rw [hZrow l, if_neg hl]
  intro l1 l2
  by_cases h1 : l1 = j <;> by_cases h2 : l2 = j
  · rw [h1, h2, sum_emod_zero]
    intro c _
    rw [hgX c, hgZ c]
    exact sweep_term3 (getM t.X j c) (getM t.Z j c) (getM t.X i c) (getM t.Z i c)
  · rw [h1]
    rw [sum_emod_split (List.range w) _
      (fun c => bi (getM t.X j c && getM t.Z l2 c) + bi (getM t.Z j c && getM t.X l2 c))
      (fun c => bi (getM t.X i c && getM t.Z l2 c) + bi (getM t.Z i c && getM t.X l2 c))]
    · have hp1 := hpw j l2
      have hp2 := hpw i l2
      omega
    · intro c _
      rw [hgX c, hgZ c, hgX2 l2 h2 c, hgZ2 l2 h2 c]
      exact sweep_term1 (getM t.X j c) (getM t.Z j c) (getM t.X i c) (getM t.Z i c)
        (getM t.X l2 c) (getM t.Z l2 c)
  · rw [h2]
    rw [sum_emod_split (List.range w) _
      (fun c => bi (getM t.X l1 c && getM t.Z j c) + bi (getM t.Z l1 c && getM t.X j c))
      (fun c => bi (getM t.X l1 c && getM t.Z i c) + bi (getM t.Z l1 c && getM t.X i c))]
    · have hp1 := hpw l1 j
      have hp2 := hpw l1 i
      omega
    · intro c _
      rw [hgX c, hgZ c, hgX2 l1 h1 c, hgZ2 l1 h1 c]
      exact sweep_term2 (getM t.X l1 c) (getM t.Z l1 c) (getM t.X j c) (getM t.Z j c)
        (getM t.X i c) (getM t.Z i c)
  · have heq : (fun c => bi (getM (sweepXors t i j).X l1 c && getM (sweepXors t i j).Z l2 c) +
        bi (getM (sweepXors t i j).Z l1 c && getM (sweepXors t i j).X l2 c)) =
        fun c => bi (getM t.X l1 c && getM t.Z l2 c) + bi (getM t.Z l1 c && getM t.X l2 c) := by
      funext c
      rw [hgX2 l1 h1 c, hgZ2 l1 h1 c, hgX2 l2 h2 c, hgZ2 l2 h2 c]
    rw [heq]
    exact hpw l1 l2

/-- Commuting rows make `sweep_rows` succeed (shared worker). -/
theorem sweep_rows_ok (t : Tab) (i j : Nat) (h : rowsCommute t i j) :
    (tval t i j % 4 = 0 ∨ tval t i j % 4 = 2) ∧
      ∃ t2, sweep_rows t i j = .ok t2 := by
  have hsum : ((List.range (width t.X)).map fun k =>
      g (getM t.X i k) (getM t.Z i k) (getM t.X j k) (getM t.Z j k)).sum % 2 = 0 := by
    rw [sum_emod_congr _ _ (fun k =>
      bi (getM t.X i k && getM t.Z j k) + bi (getM t.Z i k && getM t.X j k))]
    · exact h
    · intro k _
      exact g_parity (getM t.X i k) (getM t.Z i k) (getM t.X j k) (getM t.Z j k)
  have heven : tval t i j % 2 = 0 := by
    unfold tval
    rcases t.Sb.getD j false <;> rcases t.Sb.getD i false <;> simp [bi] <;> omega
  have hmod : tval t i j % 4 = 0 ∨ tval t i j % 4 = 2 := by omega
  refine ⟨hmod, ?_⟩
  unfold sweep_rows
  rcases hmod with hm | hm
  · rw [if_pos hm]
    exact ⟨_, rfl⟩
  · by_cases h0 : tval t i j % 4 = 0
    · rw [if_pos h0]
      exact ⟨_, rfl⟩
    · rw [if_neg h0, if_pos hm]
      exact ⟨_, rfl⟩

theorem Inv_sweep_rows (t t2 : Tab) (w i j : Nat) (hwf : TabWF t w) (hpw : PWc t w)
    (hi : i < t.X.length) (hj : j < t.X.length) (hok : sweep_rows t i j = .ok t2) :
    TabWF t2 w ∧ PWc t2 w ∧ t2.X.length = t.X.length := by
  unfold sweep_rows at hok
  by_cases h0 : tval t i j % 4 = 0
  · rw [if_pos h0] at hok
    injection hok with hok2
    rw [← hok2]
    refine ⟨TabWF_sweepXors _ w i j hwf hi hj, PWc_sweepXors _ w i j hwf hpw hi hj, ?_⟩
    show (t.X.set j _).length = t.X.length
    simp
  · rw [if_neg h0] at hok
    by_cases h2 : tval t i j % 4 = 2
    · rw [if_pos h2] at hok
      injection hok with hok2
      rw [← hok2]
      refine ⟨TabWF_sweepXors _ w i j hwf hi hj, PWc_sweepXors _ w i j hwf hpw hi hj, ?_⟩
      show (t.X.set j _).length = t.X.length
      simp
    · rw [if_neg h2] at hok
      cases hok

theorem width_eq (m : Mat) (w : Nat) (hw : ∀ row ∈ m, row.length = w)
    (h : 0 < m.length) : width m = w := by
  cases m with
  | nil => cases h
  | cons row rest => exact hw row (List.mem_cons_self row rest)

theorem findPivot_bounds (m : Mat) (k i j : Nat) (h : findPivot m k = some (i, j)) :
    k ≤ i ∧ i < m.length ∧ k ≤ j ∧ j < width m := by
  unfold findPivot at h
  rcases List.exists_of_findSome?_eq_some h with ⟨i2, hi2mem, hi2⟩

  rcases Option.map_eq_some'.1 hi2 with ⟨j2, hfind, hpair⟩
  injection hpair with ha hb
  subst ha
  subst hb
  have hjmem := List.mem_of_find?_eq_some hfind
  rw [List.mem_range'_1] at hi2mem
  rw [List.mem_range'_1] at hjmem
  omega

theorem foldlM_total {σ α : Type} (P : σ → Prop) :
    ∀ (l : List α) (f : σ → α → Except Err σ),
      (∀ s a, a ∈ l → P s → ∃ s2, f s a = .ok s2 ∧ P s2) →
      ∀ s, P s → ∃ s2, l.foldlM f s = .ok s2 ∧ P s2 := by
  intro l
  induction l with
  | nil =>
    intro f _ s hs
    exact ⟨s, rfl, hs⟩
  | cons a l ih =>
    intro f hf s hs
    rcases hf s a (List.mem_cons_self a l) hs with ⟨s1, hfs, hs1⟩
    rcases ih f (fun s2 b hb hs2 => hf s2 b (List.mem_cons_of_mem a hb) hs2) s1 hs1 with
      ⟨s2, hfold, hs2⟩
    refine ⟨s2, ?_, hs2⟩
    rw [List.foldlM_cons, hfs, ok_bind]
    exact hfold

theorem except_bind_error {α β : Type} {e : Except Err α} {f : α → Except Err β} {err : Err}
    (h : (e >>= f) = .error err) : e = .error err ∨ ∃ a, e = .ok a ∧ f a = .error err := by
  cases e with
  | ok a => exact Or.inr ⟨a, rfl, h⟩
  | error msg =>
    refine Or.inl ?_
    have h2 : (Except.error msg : Except Err β) = Except.error err := h
    injection h2 with h3
    rw [h3]

theorem remove_hh_error_idx (qc : List Gate) (e : Err) (h : remove_hh qc = .error e) :
    e = .indexError := by
  unfold remove_hh at h
  generalize (sortNat (hToRemove qc)).reverse = l at h
  induction l generalizing qc with
  | nil => cases h
  | cons a l ih =>
    rw [List.foldlM_cons] at h
    cases hp : popAt qc a with
    | error e2 =>
      rw [hp] at h
      have he2 : e2 = Err.indexError := by
        unfold popAt at hp
        by_cases hlt : a < qc.length
        · rw [if_pos hlt] at hp
          cases hp
        · rw [if_neg hlt] at hp
          injection hp with hp2
          exact hp2.symm
      have : Except.error e2 = (Except.error e : Except Err (List Gate)) := h
      injection this with h2
      rw [← h2, he2]
    | ok qc2 =>
      rw [hp, ok_bind] at h
      exact ih qc2 h

/-- The invariant carried through the diagonalization loops. -/
def DInv (w n : Nat) (st : DState) : Prop :=
  TabWF st.tab w ∧ PWc st.tab w ∧ st.tab.X.length = n

theorem rowsCommute_of_PWc (t : Tab) (w : Nat) (hwf : TabWF t w) (hpw : PWc t w)
    (hpos : 0 < t.X.length) (i j : Nat) : rowsCommute t i j := by
  unfold rowsCommute
  rw [width_eq t.X w hwf.2.1 hpos]
  exact hpw i j

theorem sweepLoopX_total (w n : Nat) (st : DState) (k : Nat)
    (hinv : DInv w n st) (hk : k < n) :
    ∃ st2, sweepLoopX st k = .ok st2 ∧ DInv w n st2 := by
  unfold sweepLoopX
  rw [hinv.2.2]
  refine foldlM_total (DInv w n) (List.range n) _ ?_ st hinv
  intro s l hl hs
  rw [List.mem_range] at hl
  have hsn : s.tab.X.length = n := hs.2.2
  by_cases hlk : l = k
  · rw [if_pos hlk]
    exact ⟨s, rfl, hs⟩
  · rw [if_neg hlk]
    by_cases hg : getM s.tab.X l k = true
    · rw [if_pos hg]
      have hpos : 0 < s.tab.X.length := by omega
      have hcomm := rowsCommute_of_PWc s.tab w hs.1 hs.2.1 hpos k l
      rcases (sweep_rows_ok s.tab k l hcomm).2 with ⟨t2, hok⟩
      have hiv := Inv_sweep_rows s.tab t2 w k l hs.1 hs.2.1
        (by omega) (by omega) hok
      refine ⟨{ s with tab := t2 }, ?_, hiv.1, hiv.2.1, ?_⟩
      · rw [hok]
        rfl
      · show t2.X.length = n
        rw [hiv.2.2, hs.2.2]
    · rw [if_neg hg]
      exact ⟨s, rfl, hs⟩

theorem sweepLoopZ_total (w n : Nat) (st : DState) (k : Nat)
    (hinv : DInv w n st) (hk : k < n) :
    ∃ st2, sweepLoopZ st k = .ok st2 ∧ DInv w n st2 := by
  unfold sweepLoopZ
  have hZn : st.tab.Z.length = n := by
    have := hinv.1.1
    have := hinv.2.2
    omega
  rw [hZn]
  refine foldlM_total (DInv w n) (List.range n) _ ?_ st hinv
  intro s l hl hs
  rw [List.mem_range] at hl
  have hsn : s.tab.X.length = n := hs.2.2
  by_cases hlk : l = k
  · rw [if_pos hlk]
    exact ⟨s, rfl, hs⟩
  · rw [if_neg hlk]
    by_cases hg : getM s.tab.Z l k = true
    · rw [if_pos hg]
      have hpos : 0 < s.tab.X.length := by omega
      have hcomm := rowsCommute_of_PWc s.tab w hs.1 hs.2.1 hpos k l
      rcases (sweep_rows_ok s.tab k l hcomm).2 with ⟨t2, hok⟩
      have hiv := Inv_sweep_rows s.tab t2 w k l hs.1 hs.2.1
        (by omega) (by omega) hok
      refine ⟨{ s with tab := t2 }, ?_, hiv.1, hiv.2.1, ?_⟩
      · rw [hok]
        rfl
      · show t2.X.length = n
        rw [hiv.2.2, hs.2.2]
    · rw [if_neg hg]
      exact ⟨s, rfl, hs⟩

theorem length_colSwap (m : Mat) (j k : Nat) : (colSwap m j k).length = m.length := by
  rw [colSwap_eq_map, List.length_map]

theorem pivotColSwap_DInv (w n : Nat) (s : DState) (j k : Nat) (hinv : DInv w n s)
    (hj : j < w) (hk : k < w) : DInv w n (pivotColSwap s j k) := by
  refine ⟨TabWF_colSwap s.tab _ w j k hinv.1 rfl rfl,
    PWc_colSwap s.tab _ w j k hinv.1 hinv.2.1 hj hk rfl rfl, ?_⟩
  show (colSwap s.tab.X j k).length = n
  rw [length_colSwap]
  exact hinv.2.2

theorem diagX_step_total (w n : Nat) (st : DState) (k : Nat) (hinv : DInv w n st) :
    ∃ st2, diagX_step st k = .ok st2 ∧ DInv w n st2 := by
  cases hfp : findPivot st.tab.X k with
  | none =>
    refine ⟨st, ?_, hinv⟩
    unfold diagX_step
    rw [hfp]
  | some ij =>
    obtain ⟨i, j⟩ := ij
    obtain ⟨hki, hin, hkj, hjw⟩ := findPivot_bounds st.tab.X k i j hfp
    have hn := hinv.2.2
    have hpos : 0 < st.tab.X.length := by omega
    have hwidth : width st.tab.X = w := width_eq _ w hinv.1.2.1 hpos
    rw [hwidth] at hjw
    have hred : diagX_step st k = sweepLoopX
        (if j ≠ k then pivotColSwap (if i ≠ k then
            { st with kx := k + 1, tab := rowSwapTab st.tab i k }
          else { st with kx := k + 1 }) j k
        else (if i ≠ k then { st with kx := k + 1, tab := rowSwapTab st.tab i k }
          else { st with kx := k + 1 })) k := by
      unfold diagX_step
      rw [hfp]
    have hinvB : DInv w n (if i ≠ k then { st with kx := k + 1, tab := rowSwapTab st.tab i k }
        else { st with kx := k + 1 }) := by
      by_cases hik : i ≠ k
      · rw [if_pos hik]
        refine ⟨TabWF_rowSwapTab st.tab w i k hinv.1 hin (by omega),
          PWc_rowSwapTab st.tab w i k hinv.1 hinv.2.1 hin (by omega), ?_⟩
        show (rowSwapTab st.tab i k).X.length = n
        rw [length_rowSwapTab]
        exact hn
      · rw [if_neg hik]
        exact hinv
    by_cases hjk : j ≠ k
    · rw [if_pos hjk] at hred
      rcases sweepLoopX_total w n _ k (pivotColSwap_DInv w n _ j k hinvB hjw (by omega))
        (by omega) with ⟨st2, hloop, hinv2⟩
      refine ⟨st2, ?_, hinv2⟩
      rw [hred]
      exact hloop
    · rw [if_neg hjk] at hred
      rcases sweepLoopX_total w n _ k hinvB (by omega) with ⟨st2, hloop, hinv2⟩
      refine ⟨st2, ?_, hinv2⟩
      rw [hred]
      exact hloop

theorem diagZ_step_total (w n : Nat) (st : DState) (k : Nat) (hinv : DInv w n st) :
    ∃ st2, diagZ_step st k = .ok st2 ∧ DInv w n st2 := by
  cases hfp : findPivot st.tab.Z k with
  | none =>
    refine ⟨st, ?_, hinv⟩
    unfold diagZ_step
    rw [hfp]
  | some ij =>
    obtain ⟨i, j⟩ := ij
    obtain ⟨hki, hin, hkj, hjw⟩ := findPivot_bounds st.tab.Z k i j hfp
    have hn := hinv.2.2
    have hZn : st.tab.Z.length = n := by
      have := hinv.1.1
      omega
    have hposZ : 0 < st.tab.Z.length := by omega
    have hwidth : width st.tab.Z = w := width_eq _ w hinv.1.2.2 hposZ
    rw [hwidth] at hjw
    rw [hZn] at hin
    have hred : diagZ_step st k = sweepLoopZ
        (if j ≠ k then pivotColSwap (if i ≠ k then
            { st with kz := k + 1, tab := rowSwapTab st.tab i k }
          else { st with kz := k + 1 }) j k
        else (if i ≠ k then { st with kz := k + 1, tab := rowSwapTab st.tab i k }
          else { st with kz := k + 1 })) k := by
      unfold diagZ_step
      rw [hfp]
    have hinvB : DInv w n (if i ≠ k then { st with kz := k + 1, tab := rowSwapTab st.tab i k }
        else { st with kz := k + 1 }) := by
      by_cases hik : i ≠ k
      · rw [if_pos hik]
        refine ⟨TabWF_rowSwapTab st.tab w i k hinv.1 (by omega) (by omega),
          PWc_rowSwapTab st.tab w i k hinv.1 hinv.2.1 (by omega) (by omega), ?_⟩
        show (rowSwapTab st.tab i k).X.length = n
        rw [length_rowSwapTab]
        exact hn
      · rw [if_neg hik]
        exact hinv
    by_cases hjk : j ≠ k
    · rw [if_pos hjk] at hred
      rcases sweepLoopZ_total w n _ k (pivotColSwap_DInv w n _ j k hinvB hjw (by omega))
        (by omega) with ⟨st2, hloop, hinv2⟩
      refine ⟨st2, ?_, hinv2⟩
      rw [hred]
      exact hloop
    · rw [if_neg hjk] at hred
      rcases sweepLoopZ_total w n _ k hinvB (by omega) with ⟨st2, hloop, hinv2⟩
      refine ⟨st2, ?_, hinv2⟩
      rw [hred]
      exact hloop

theorem diagX_total (w n : Nat) (st : DState) (r : Nat) (hinv : DInv w n st) :
    ∃ st2, diagX st r = .ok st2 ∧ DInv w n st2 := by
  unfold diagX
  exact foldlM_total (DInv w n) (List.range r) diagX_step
    (fun s a _ hs => diagX_step_total w n s a hs) st hinv

theorem diagZ_total (w n : Nat) (st : DState) (r : Nat) (hinv : DInv w n st) :
    ∃ st2, diagZ st r = .ok st2 ∧ DInv w n st2 := by
  unfold diagZ
  exact foldlM_total (DInv w n) (List.range' st.kx (r - st.kx)) diagZ_step
    (fun s a _ hs => diagZ_step_total w n s a hs) st hinv

theorem getRow_map_lt {α : Type} (ps : List α) (f : α → List Bool) (l : Nat)
    (hl : l < ps.length) : getRow (ps.map f) l = f (ps.get ⟨l, hl⟩) := by
  unfold getRow
  rw [List.getD_eq_getElem _ _ (by simpa using hl)]
  simp

theorem getRow_map_ge {α : Type} (ps : List α) (f : α → List Bool) (l : Nat)
    (hl : ¬ l < ps.length) : getRow (ps.map f) l = [] := by
  unfold getRow
  exact List.getD_eq_default _ _ (by simp; omega)

/-- The initial tableau of `sim_cliff_diag` satisfies the invariant. -/
theorem DInv_init (ps : List PauliT) (w : Nat)
    (hwf : ∀ p ∈ ps, p.x.length = w ∧ p.z.length = w)
    (hcomm : ∀ a ∈ ps, ∀ b ∈ ps, commutes a b = true) :
    TabWF ⟨ps.map (·.x), ps.map (·.z), ps.map fun _ => false⟩ w ∧
      PWc ⟨ps.map (·.x), ps.map (·.z), ps.map fun _ => false⟩ w := by
  constructor
  · refine ⟨by simp, ?_, ?_⟩
    · intro row hrow
      rcases List.mem_map.1 hrow with ⟨p, hp, rfl⟩
      exact (hwf p hp).1
    · intro row hrow
      rcases List.mem_map.1 hrow with ⟨p, hp, rfl⟩
      exact (hwf p hp).2
  · intro i j
    by_cases hi : i < ps.length
    · by_cases hj : j < ps.length
      · have h1 : ∀ c, getM (ps.map fun p => p.x) i c = getB (ps.get ⟨i, hi⟩).x c := by
          intro c
          unfold getM
          rw [getRow_map_lt ps _ i hi]
        have h2 : ∀ c, getM (ps.map fun p => p.z) j c = getB (ps.get ⟨j, hj⟩).z c := by
          intro c
          unfold getM
          rw [getRow_map_lt ps _ j hj]
        have h3 : ∀ c, getM (ps.map fun p => p.z) i c = getB (ps.get ⟨i, hi⟩).z c := by
          intro c
          unfold getM
          rw [getRow_map_lt ps _ i hi]
        have h4 : ∀ c, getM (ps.map fun p => p.x) j c = getB (ps.get ⟨j, hj⟩).x c := by
          intro c
          unfold getM
          rw [getRow_map_lt ps _ j hj]
        have heq : (fun c =>
            bi (getM (ps.map fun p => p.x) i c && getM (ps.map fun p => p.z) j c) +
              bi (getM (ps.map fun p => p.z) i c && getM (ps.map fun p => p.x) j c)) =
            fun c => bi (getB (ps.get ⟨i, hi⟩).x c && getB (ps.get ⟨j, hj⟩).z c) +
              bi (getB (ps.get ⟨i, hi⟩).z c && getB (ps.get ⟨j, hj⟩).x c) := by
          funext c
          rw [h1, h2, h3, h4]
        rw [heq]
        exact (commutes_iff_sum (ps.get ⟨i, hi⟩) (ps.get ⟨j, hj⟩) w
          (hwf _ (List.get_mem ps i hi)) (hwf _ (List.get_mem ps j hj))).2
          (hcomm _ (List.get_mem ps i hi) _ (List.get_mem ps j hj))
      · rw [sum_emod_zero]
        intro c _
        have hz : getM (ps.map fun p => p.z) j c = false := by
          unfold getM
          rw [getRow_map_ge ps _ j hj]
          rfl
        have hx : getM (ps.map fun p => p.x) j c = false := by
          unfold getM
          rw [getRow_map_ge ps _ j hj]
          rfl
        show (bi (_ && getM (ps.map fun p => p.z) j c) +
          bi (_ && getM (ps.map fun p => p.x) j c)) % 2 = 0
        rw [hz, hx, Bool.and_false, Bool.and_false]
        decide
    · rw [sum_emod_zero]
      intro c _
      have hz : getM (ps.map fun p => p.z) i c = false := by
        unfold getM
        rw [getRow_map_ge ps _ i hi]
        rfl
      have hx : getM (ps.map fun p => p.x) i c = false := by
        unfold getM
        rw [getRow_map_ge ps _ i hi]
        rfl
      show (bi (getM (ps.map fun p => p.x) i c && _) +
        bi (getM (ps.map fun p => p.z) i c && _)) % 2 = 0
      rw [hz, hx, Bool.false_and, Bool.false_and]
      decide

/-- On a pairwise-commuting list of width-`w` Paulis, `sim_cliff_diag` never
raises the `sweep_rows` exception. -/
theorem sim_cliff_no_sweep (ps : List PauliT) (w : Nat)
    (hwf : ∀ p ∈ ps, p.x.length = w ∧ p.z.length = w)
    (hcomm : ∀ a ∈ ps, ∀ b ∈ ps, commutes a b = true) :
    sim_cliff_diag ps ≠ .error Err.sweepUnexpected := by
  intro hcontra
  cases ps with
  | nil => exact absurd hcontra (by decide)
  | cons p0 ps2 =>
    unfold sim_cliff_diag at hcontra
    dsimp only at hcontra
    have hinit := DInv_init (p0 :: ps2) w hwf hcomm
    have hinv0 : DInv w (p0 :: ps2).length
        ⟨⟨(p0 :: ps2).map (·.x), (p0 :: ps2).map (·.z), (p0 :: ps2).map fun _ => false⟩,
          ⟨(p0 :: ps2).map (·.x), (p0 :: ps2).map (·.z), (p0 :: ps2).map fun _ => false⟩,
          [], 0, 0⟩ := ⟨hinit.1, hinit.2, by simp⟩
    obtain ⟨st1m, hok1, hinv1⟩ := diagX_total w (p0 :: ps2).length _
      (symplecticRank ((p0 :: ps2).map (·.x)) ((p0 :: ps2).map (·.z))) hinv0
    rcases except_bind_error hcontra with h1 | ⟨st1, h1, hcontra2⟩
    · exact Except.noConfusion (hok1.symm.trans h1)
    · have hst1 : st1m = st1 := Except.ok.inj (hok1.symm.trans h1)
      subst hst1
      have hinv1b : DInv w (p0 :: ps2).length { st1m with kz := st1m.kx } := hinv1
      obtain ⟨st2m, hok2, hinv2⟩ := diagZ_total w (p0 :: ps2).length
        { st1m with kz := st1m.kx }
        (symplecticRank ((p0 :: ps2).map (·.x)) ((p0 :: ps2).map (·.z))) hinv1b
      rcases except_bind_error hcontra2 with h2 | ⟨st2, h2, hcontra3⟩
      · exact Except.noConfusion (hok2.symm.trans h2)
      · have hst2 : st2m = st2 := Except.ok.inj (hok2.symm.trans h2)
        subst hst2
        rcases except_bind_error hcontra3 with h3 | ⟨qc2, h3, hcontra4⟩
        · cases remove_hh_error_idx _ _ h3
        · by_cases hA : allFalse (stageFinal (stageOffZ (stageOffX (stageSwapZX st2m)))).tab.X = true
          · rw [if_pos hA] at hcontra4
            by_cases hB : allFalse
                (stageFinal (stageOffZ (stageOffX (stageSwapZX st2m)))).tab2.X = true
            · rw [if_pos hB] at hcontra4
              exact Except.noConfusion hcontra4
            · rw [if_neg hB] at hcontra4
              have h5 : (Except.error Err.assertX2Failed : Except Err (Circuit × List PauliT)) =
                  .error Err.sweepUnexpected := hcontra4
              injection h5 with h6
              cases h6
          · rw [if_neg hA] at hcontra4
            have h5 : (Except.error Err.assertXFailed : Except Err (Circuit × List PauliT)) =
                .error Err.sweepUnexpected := hcontra4
            injection h5 with h6
            cases h6

/-- C10: for rows representing two commuting Pauli operators, the quantity
`t` of `sweep_rows` is `0` or `2` mod `4` and `sweep_rows` succeeds; moreover,
on any pairwise-commuting list of equal-width Paulis the whole `sim_cliff_diag`
run never raises — the `raise Exception("Unexpected result in sweep_rows")`
branch is unreachable under the commutation precondition. -/
theorem claim_C10 (t : Tab) (i j : Nat) (h : rowsCommute t i j)
    (ps : List PauliT) (w : Nat)
    (hwf : ∀ p ∈ ps, p.x.length = w ∧ p.z.length = w)
    (hcomm : ∀ a ∈ ps, ∀ b ∈ ps, commutes a b = true) :
    ((tval t i j % 4 = 0 ∨ tval t i j % 4 = 2) ∧
        ∃ t2, sweep_rows t i j = .ok t2) ∧
      sim_cliff_diag ps ≠ .error Err.sweepUnexpected :=
  ⟨sweep_rows_ok t i j h, sim_cliff_no_sweep ps w hwf hcomm⟩

/-- Concrete instantiation of `claim_C10`: the commuting rows `XI`, `IZ`, and
the pairwise-commuting singleton list holding the one-qubit Pauli `X`. -/
theorem claim_C10_witness :
    (rowsCommute ⟨[[true, false], [false, false]], [[false, false], [false, true]],
        [false, false]⟩ 0 1 ∧
      (∀ p ∈ [(⟨[true], [false], 0⟩ : PauliT)], p.x.length = 1 ∧ p.z.length = 1) ∧
      (∀ a ∈ [(⟨[true], [false], 0⟩ : PauliT)], ∀ b ∈ [(⟨[true], [false], 0⟩ : PauliT)],
        commutes a b = true)) ∧
      (((tval ⟨[[true, false], [false, false]], [[false, false], [false, true]],
          [false, false]⟩ 0 1 % 4 = 0 ∨
        tval ⟨[[true, false], [false, false]], [[false, false], [false, true]],
          [false, false]⟩ 0 1 % 4 = 2) ∧
        ∃ t2, sweep_rows ⟨[[true, false], [false, false]],
          [[false, false], [false, true]], [false, false]⟩ 0 1 = .ok t2) ∧
        sim_cliff_diag [(⟨[true], [false], 0⟩ : PauliT)] ≠ .error Err.sweepUnexpected) :=
  ⟨⟨by decide, by decide, by decide⟩,
    claim_C10 _ 0 1 (by decide) [⟨[true], [false], 0⟩] 1 (by decide) (by decide)⟩

/-! ### C7 — failure modes of the whole script -/


theorem foldlM_error_pred {σ α : Type} (f : σ → α → Except Err σ) (P : Err → Prop)
    (hf : ∀ s a e, f s a = .error e → P e) :
    ∀ (l : List α) (s : σ) (e : Err), l.foldlM f s = .error e → P e := by
  intro l
  induction l with
  | nil =>
    intro s e h
    cases h
  | cons a l ih =>
    intro s e h
    rw [List.foldlM_cons] at h
    cases hfa : f s a with
    | error e2 =>
      rw [hfa] at h
      have h2 : (Except.error e2 : Except Err σ) = .error e := h
      injection h2 with h3
      exact h3 ▸ hf s a e2 hfa
    | ok s2 =>
      rw [hfa, ok_bind] at h
      exact ih s2 e h

theorem master_circuit_error (cs : List Circuit) (e : Err)
    (h : master_circuit cs = .error e) : e = Err.indexError := by
  unfold master_circuit at h
  refine foldlM_error_pred _ (fun e2 => e2 = Err.indexError) ?_ _ _ _ h
  intro acc k e2 h2
  refine foldlM_error_pred _ (fun e3 => e3 = Err.indexError) ?_ _ _ _ h2
  intro acc2 i e3 h3
  by_cases hi : i < cs.length
  · rw [dif_pos hi] at h3
    cases h3
  · rw [dif_neg hi] at h3
    have h4 : (Except.error Err.indexError : Except Err Circuit) = .error e3 := h3
    injection h4 with h5
    exact h5.symm

theorem ite_ok_not_error {γ : Type} (c : Prop) [Decidable c] (a b : γ) (e : Err) :
    ¬ ((if c then Except.ok a else Except.ok b : Except Err γ) = Except.error e) := by
  intro h
  by_cases hc : c
  · rw [if_pos hc] at h
    cases h
  · rw [if_neg hc] at h
    cases h

theorem walk_paulis_error (dps : List WPauli) (e : Err)
    (h : walk_paulis dps = .error e) : e = Err.indexError := by
  cases dps with
  | nil =>
    have h2 : (Except.error Err.indexError : Except Err Circuit) = .error e := h
    injection h2 with h3
    exact h3.symm
  | cons p0 rest =>
    exact absurd h (ite_ok_not_error _ _ _ e)

theorem mapM_except_error {α β : Type} (f : α → Except Err β) :
    ∀ (xs : List α) (e : Err), xs.mapM f = .error e → ∃ a ∈ xs, f a = .error e := by
  intro xs
  induction xs with
  | nil =>
    intro e h
    simp only [List.mapM_nil, pure, Except.pure] at h
    cases h
  | cons x xs ih =>
    intro e h
    rw [List.mapM_cons] at h
    rcases except_bind_error h with h1 | ⟨y, hy, h2⟩
    · exact ⟨x, List.mem_cons_self x xs, h1⟩
    · rcases except_bind_error h2 with h3 | ⟨ys, hys, h4⟩
      · rcases ih e h3 with ⟨a, ha, hfa⟩
        exact ⟨a, List.mem_cons_of_mem x ha, hfa⟩
      · simp only [pure, Except.pure] at h4
        cases h4

theorem circuits_of_error_no_sweep (subsets : List (List WPauli)) (w : Nat)
    (hsub : ∀ g ∈ subsets, (∀ p ∈ g, p.primitive.x.length = w ∧ p.primitive.z.length = w) ∧
      ∀ a ∈ g, ∀ b ∈ g, commutes a.primitive b.primitive = true)
    (e : Err) (h : circuits_of subsets = .error e) : e ≠ Err.sweepUnexpected := by
  unfold circuits_of at h
  rcases mapM_except_error _ subsets e h with ⟨g, hg, hge⟩
  rcases except_bind_error hge with h1 | ⟨pr, hpr, h2⟩
  · intro hes
    refine sim_cliff_no_sweep (g.map (·.primitive)) w ?_ ?_ (hes ▸ h1)
    · intro p hp
      rcases List.mem_map.1 hp with ⟨wp, hwp, rfl⟩
      exact (hsub g hg).1 wp hwp
    · intro a ha b hb
      rcases List.mem_map.1 ha with ⟨wa, hwa, rfl⟩
      rcases List.mem_map.1 hb with ⟨wb, hwb, rfl⟩
      exact (hsub g hg).2 wa hwa wb hwb
  · rcases except_bind_error h2 with h3 | ⟨wqc, hwqc, h4⟩
    · have hidx := walk_paulis_error _ _ h3
      intro hes
      rw [hes] at hidx
      cases hidx
    · simp only [pure, Except.pure] at h4
      cases h4

theorem build_master_error_no_sweep (subsets : List (List WPauli)) (w : Nat)
    (hsub : ∀ g ∈ subsets, (∀ p ∈ g, p.primitive.x.length = w ∧ p.primitive.z.length = w) ∧
      ∀ a ∈ g, ∀ b ∈ g, commutes a.primitive b.primitive = true)
    (e : Err) (h : build_master subsets = .error e) : e ≠ Err.sweepUnexpected := by
  unfold build_master at h
  rcases except_bind_error h with h1 | ⟨cs, hcs, h2⟩
  · exact circuits_of_error_no_sweep subsets w hsub e h1
  · have hidx := master_circuit_error cs e h2
    intro hes
    rw [hes] at hidx
    cases hidx

/-- On any input whose parsed Pauli strings share the common width `w`, the
whole script can only fail with an assertion failure, an `IndexError`, or the
parse failure — never with the `sweep_rows` exception. -/
theorem run_script_failures (content : String) (w : Nat)
    (hwidth : ∀ p ∈ (parse_file content).getD [],
      p.primitive.x.length = w ∧ p.primitive.z.length = w) :
    ∀ e, run_script content = .error e →
      e = Err.assertXFailed ∨ e = Err.assertX2Failed ∨ e = Err.indexError ∨
        e = Err.parseError := by
  intro e h
  suffices hne : e ≠ Err.sweepUnexpected by
    cases e
    · exact absurd rfl hne
    all_goals decide
  intro hes
  subst hes
  unfold run_script at h
  cases hpf : parse_file content with
  | none =>
    rw [hpf] at h
    have h1b : (Except.error Err.parseError : Except Err (Circuit × Nat)) =
        .error Err.sweepUnexpected := h
    injection h1b with h1c
    cases h1c
  | some ps =>
    rw [hpf] at h
    rcases except_bind_error h with h1 | ⟨ps2, hps2, h2⟩
    · simp only [pure, Except.pure] at h1
      cases h1
    · have hps2b : ps = ps2 := by
        simp only [pure, Except.pure] at hps2
        exact Except.ok.inj hps2
      subst hps2b
      rcases except_bind_error h2 with h3 | ⟨mc, hmc, h4⟩
      · refine absurd rfl (build_master_error_no_sweep (commuting_subsets ps) w ?_ _ h3)
        intro g hg
        have hprops := (commuting_subsets_props ps).2 g hg
        have hget : (parse_file content).getD [] = ps := by
          rw [hpf]
          rfl
        refine ⟨?_, hprops.2.2⟩
        intro p hp
        exact hwidth p (hget ▸ hprops.2.1.subset hp)
      · simp only [pure, Except.pure] at h4
        cases h4

/-- C7: the failure modes of the whole script.  The claim that an assertion
failure is the only possible exception is refuted: a syntactically valid input
holding a single Pauli term makes the hard-coded group ordering raise
`IndexError` (see the counterexample).  Amended and proved: on any input whose
parsed Pauli strings share a common width, every failure of `run_script` is an
assertion failure, an `IndexError`, or the parse failure — the `sweep_rows`
exception is never raised, because the greedy grouping only builds
pairwise-commuting subsets and commutation is an invariant of the
diagonalization. -/
theorem claim_C7 (content : String) (w : Nat)
    (hwidth : ∀ p ∈ (parse_file content).getD [],
      p.primitive.x.length = w ∧ p.primitive.z.length = w) :
    ∀ e, run_script content = .error e →
      e = Err.assertXFailed ∨ e = Err.assertX2Failed ∨ e = Err.indexError ∨
        e = Err.parseError :=
  run_script_failures content w hwidth

/-- A syntactically valid one-term input on which the script raises
`IndexError` (the hard-coded ordering indexes position 6 of a single-element
circuit list), refuting that the assertion failure is the only failure
mode. -/
theorem claim_C7_counterexample :
    run_script ("+ 1.0 ab ZZ") = .error Err.indexError ∧
      Err.indexError ≠ Err.assertXFailed ∧ Err.indexError ≠ Err.assertX2Failed :=
  ⟨by decide, by decide, by decide⟩

/-- Concrete instantiation of `claim_C7` on the same one-term input. -/
theorem claim_C7_witness :
    (∀ p ∈ (parse_file ("+ 1.0 ab ZZ")).getD [],
      p.primitive.x.length = 2 ∧ p.primitive.z.length = 2) ∧
      ∀ e, run_script ("+ 1.0 ab ZZ") = .error e →
        e = Err.assertXFailed ∨ e = Err.assertX2Failed ∨ e = Err.indexError ∨
          e = Err.parseError :=
  ⟨by decide, claim_C7 ("+ 1.0 ab ZZ") 2 (by decide)⟩

/-! ### C2 — `sim_cliff_diag` emits only CNOT/H/S and returns X-free Paulis -/

/-- The circuit `sim_cliff_diag` builds contains only CNOT, Hadamard and S
gates. -/
def isCHS : Gate → Bool
  | .h _ => true
  | .s _ => true
  | .cx _ _ => true
  | _ => false

/-- The gate-set invariant on the diagonalization state. -/
def QcCHS (st : DState) : Prop := ∀ gg ∈ st.qc, isCHS gg = true

theorem sweepLoopX_qc (st : DState) (k : Nat) (s2 : DState)
    (h : sweepLoopX st k = .ok s2) : s2.qc = st.qc := by
  refine foldlM_except_inv _ (fun s => s.qc = st.qc) ?_ _ st s2 h rfl
  intro s a s3 hf hs
  by_cases h1 : a = k
  · rw [if_pos h1] at hf
    cases hf
    exact hs
  · rw [if_neg h1] at hf
    by_cases h2 : getM s.tab.X a k = true
    · rw [if_pos h2] at hf
      obtain ⟨t, _, he⟩ := except_map_ok hf
      rw [← he]
      exact hs
    · rw [if_neg h2] at hf
      cases hf
      exact hs

theorem sweepLoopZ_qc (st : DState) (k : Nat) (s2 : DState)
    (h : sweepLoopZ st k = .ok s2) : s2.qc = st.qc := by
  refine foldlM_except_inv _ (fun s => s.qc = st.qc) ?_ _ st s2 h rfl
  intro s a s3 hf hs
  by_cases h1 : a = k
  · rw [if_pos h1] at hf
    cases hf
    exact hs
  · rw [if_neg h1] at hf
    by_cases h2 : getM s.tab.Z a k = true
    · rw [if_pos h2] at hf
      obtain ⟨t, _, he⟩ := except_map_ok hf
      rw [← he]
      exact hs
    · rw [if_neg h2] at hf
      cases hf
      exact hs

theorem diagX_step_chs (st : DState) (k : Nat) (s2 : DState)
    (h : diagX_step st k = .ok s2) (hinv : QcCHS st) : QcCHS s2 := by
  unfold diagX_step at h
  cases hp : findPivot st.tab.X k with
  | none =>
    rw [hp] at h
    cases h
    exact hinv
  | some pr =>
    rw [hp] at h
    obtain ⟨i, j⟩ := pr
    dsimp only at h
    have hqc := sweepLoopX_qc _ _ _ h
    intro gg hg
    rw [hqc] at hg
    by_cases hj : j ≠ k
    · rw [if_pos hj] at hg
      unfold pivotColSwap at hg
      dsimp only at hg
      rcases List.mem_append.mp hg with h1 | h1
      · apply hinv
        by_cases hi : i ≠ k <;> simp [hi] at h1 <;> exact h1
      · simp only [List.mem_cons, List.not_mem_nil, or_false] at h1
        rcases h1 with rfl | rfl | rfl <;> rfl
    · rw [if_neg hj] at hg
      apply hinv
      by_cases hi : i ≠ k <;> simp [hi] at hg <;> exact hg

theorem diagZ_step_chs (st : DState) (k : Nat) (s2 : DState)
    (h : diagZ_step st k = .ok s2) (hinv : QcCHS st) : QcCHS s2 := by
  unfold diagZ_step at h
  cases hp : findPivot st.tab.Z k with
  | none =>
    rw [hp] at h
    cases h
    exact hinv
  | some pr =>
    rw [hp] at h
    obtain ⟨i, j⟩ := pr
    dsimp only at h
    have hqc := sweepLoopZ_qc _ _ _ h
    intro gg hg
    rw [hqc] at hg
    by_cases hj : j ≠ k
    · rw [if_pos hj] at hg
      unfold pivotColSwap at hg
      dsimp only at hg
      rcases List.mem_append.mp hg with h1 | h1
      · apply hinv
        by_cases hi : i ≠ k <;> simp [hi] at h1 <;> exact h1
      · simp only [List.mem_cons, List.not_mem_nil, or_false] at h1
        rcases h1 with rfl | rfl | rfl <;> rfl
    · rw [if_neg hj] at hg
      apply hinv
      by_cases hi : i ≠ k <;> simp [hi] at hg <;> exact hg

theorem diagX_chs (st : DState) (r : Nat) (s2 : DState)
    (h : diagX st r = .ok s2) (hinv : QcCHS st) : QcCHS s2 :=
  foldlM_except_inv _ QcCHS (fun s a s3 hf hs => diagX_step_chs s a s3 hf hs)
    _ st s2 h hinv

theorem diagZ_chs (st : DState) (r : Nat) (s2 : DState)
    (h : diagZ st r = .ok s2) (hinv : QcCHS st) : QcCHS s2 :=
  foldlM_except_inv _ QcCHS (fun s a s3 hf hs => diagZ_step_chs s a s3 hf hs)
    _ st s2 h hinv

theorem hAll_chs (st : DState) (j : Nat) (hinv : QcCHS st) : QcCHS (hAll st j) := by
  intro gg hg
  unfold hAll at hg
  dsimp only at hg
  rcases List.mem_append.mp hg with h1 | h1
  · exact hinv gg h1
  · simp only [List.mem_cons, List.not_mem_nil, or_false] at h1
    subst h1
    rfl

theorem cnotAll_chs (st : DState) (i j : Nat) (hinv : QcCHS st) :
    QcCHS (cnotAll st i j) := by
  intro gg hg
  unfold cnotAll at hg
  dsimp only at hg
  rcases List.mem_append.mp hg with h1 | h1
  · exact hinv gg h1
  · simp only [List.mem_cons, List.not_mem_nil, or_false] at h1
    subst h1
    rfl

theorem czAll_chs (st : DState) (i j : Nat) (hinv : QcCHS st) :
    QcCHS (czAll st i j) := by
  intro gg hg
  unfold czAll at hg
  dsimp only at hg
  rcases List.mem_append.mp hg with h1 | h1
  · exact hinv gg h1
  · simp only [List.mem_cons, List.not_mem_nil, or_false] at h1
    rcases h1 with rfl | rfl | rfl <;> rfl

theorem sAll_chs (st : DState) (i : Nat) (hinv : QcCHS st) : QcCHS (sAll st i) := by
  intro gg hg
  unfold sAll at hg
  dsimp only at hg
  rcases List.mem_append.mp hg with h1 | h1
  · exact hinv gg h1
  · simp only [List.mem_cons, List.not_mem_nil, or_false] at h1
    subst h1
    rfl

theorem stageSwapZX_chs (st : DState) (hinv : QcCHS st) : QcCHS (stageSwapZX st) :=
  foldl_inv _ QcCHS (fun s a hs => hAll_chs s a hs) _ st hinv

theorem stageOffX_chs (st : DState) (hinv : QcCHS st) : QcCHS (stageOffX st) := by
  refine foldl_inv _ QcCHS ?_ _ st hinv
  intro s a hs
  refine foldl_inv _ QcCHS ?_ _ s hs
  intro s1 b hs1
  by_cases hb : getM s1.tab.X a b = true
  · rw [if_pos hb]
    exact cnotAll_chs s1 a b hs1
  · rw [if_neg hb]
    exact hs1

theorem stageOffZ_chs (st : DState) (hinv : QcCHS st) : QcCHS (stageOffZ st) := by
  refine foldl_inv _ QcCHS ?_ _ st hinv
  intro s a hs
  refine foldl_inv _ QcCHS ?_ _ s hs
  intro s1 b hs1
  by_cases hb : getM s1.tab.Z a b = true
  · rw [if_pos hb]
    exact czAll_chs s1 a b hs1
  · rw [if_neg hb]
    exact hs1

theorem stageFinal_chs (st : DState) (hinv : QcCHS st) : QcCHS (stageFinal st) := by
  refine foldl_inv _ QcCHS ?_ _ st hinv
  intro s a hs
  dsimp only
  by_cases hb : getM s.tab.Z a a = true
  · rw [if_pos hb]
    exact hAll_chs _ a (sAll_chs s a hs)
  · rw [if_neg hb]
    exact hAll_chs _ a hs

/-- The cleanup only removes gates. -/
theorem remove_hh_subset (qc qc2 : Circuit) (h : remove_hh qc = .ok qc2) :
    ∀ gg ∈ qc2, gg ∈ qc := by
  refine foldlM_except_inv _ (fun l => ∀ gg ∈ l, gg ∈ qc) ?_ _ qc qc2 h
    (fun gg hg => hg)
  intro l a l2 hf hs gg hg
  unfold popAt at hf
  by_cases ha : a < l.length
  · rw [if_pos ha] at hf
    cases hf
    exact hs gg (List.mem_of_mem_eraseIdx hg)
  · rw [if_neg ha] at hf
    cases hf

/-- Rows read out of an all-false matrix are all-false. -/
theorem allFalse_row (m : Mat) (hm : allFalse m = true) (i : Nat) :
    (getRow m i).all (fun b => !b) = true := by
  unfold getRow
  by_cases hi : i < m.length
  · have hmem : m.getD i [] ∈ m := by
      rw [List.getD_eq_getElem?_getD]
      rw [List.getElem?_eq_getElem hi]
      exact List.getElem_mem hi
    exact List.all_eq_true.mp hm _ hmem
  · rw [List.getD_eq_getElem?_getD, List.getElem?_eq_none (by omega)]
    rfl

/-- Whenever `sim_cliff_diag` returns, every returned Pauli has an all-false
X component and the returned circuit contains only CNOT, H and S gates
(shared worker for the claims about the diagonalization output). -/
theorem sim_cliff_diag_props (paulis : List PauliT) (qc : Circuit) (ds : List PauliT)
    (h : sim_cliff_diag paulis = .ok (qc, ds)) :
    (∀ d ∈ ds, d.x.all (fun b => !b) = true) ∧ (∀ gg ∈ qc, isCHS gg = true) := by
  cases paulis with
  | nil => cases h
  | cons p0 ps =>
    unfold sim_cliff_diag at h
    dsimp only at h
    obtain ⟨st1, h1, h⟩ := except_bind_ok h
    obtain ⟨st2, h2, h⟩ := except_bind_ok h
    obtain ⟨qc2, h3, h⟩ := except_bind_ok h
    by_cases hX : allFalse (stageFinal (stageOffZ (stageOffX (stageSwapZX st2)))).tab.X = true
    case neg =>
      rw [if_neg hX] at h
      cases h
    rw [if_pos hX] at h
    by_cases hX2 : allFalse (stageFinal (stageOffZ (stageOffX (stageSwapZX st2)))).tab2.X = true
    case neg =>
      rw [if_neg hX2] at h
      cases h
    rw [if_pos hX2] at h
    cases h
    constructor
    · intro d hd
      obtain ⟨i, _, hdi⟩ := List.mem_map.mp hd
      rw [← hdi]
      exact allFalse_row _ hX2 i
    · have hst1 : QcCHS st1 := diagX_chs _ _ _ h1 (fun gg hg => by cases hg)
      have hst2 : QcCHS st2 := diagZ_chs _ _ _ h2 hst1
      have hfin : QcCHS (stageFinal (stageOffZ (stageOffX (stageSwapZX st2)))) :=
        stageFinal_chs _ (stageOffZ_chs _ (stageOffX_chs _ (stageSwapZX_chs _ hst2)))
      intro gg hg
      exact hfin gg (remove_hh_subset _ _ h3 gg hg)

/-- C2: whenever `sim_cliff_diag` returns, every returned Pauli has an
all-false X component (an identity/Z-only operator) and the returned circuit
contains only CNOT, Hadamard and S gates. -/
theorem claim_C2 (paulis : List PauliT) (qc : Circuit) (ds : List PauliT)
    (h : sim_cliff_diag paulis = .ok (qc, ds)) :
    (∀ d ∈ ds, d.x.all (fun b => !b) = true) ∧ (∀ gg ∈ qc, isCHS gg = true) :=
  sim_cliff_diag_props paulis qc ds h

/-- Concrete instantiation of `claim_C2` on the single-qubit Pauli `Y`. -/
theorem claim_C2_witness :
    sim_cliff_diag [⟨[true], [true], 0⟩] =
        .ok ([Gate.s 0, Gate.h 0], [⟨[false], [true], 2⟩]) ∧
      ((∀ d ∈ [(⟨[false], [true], 2⟩ : PauliT)], d.x.all (fun b => !b) = true) ∧
        (∀ gg ∈ [Gate.s 0, Gate.h 0], isCHS gg = true)) :=
  ⟨by decide, claim_C2 [⟨[true], [true], 0⟩] [Gate.s 0, Gate.h 0] [⟨[false], [true], 2⟩]
    (by decide)⟩

/-! ### C3 — structure of the master circuit -/

/-- Composing `circuits[i]` over a list of in-range indices appends the
picked circuits in order. -/
theorem foldlM_compose (circuits : List Circuit) :
    ∀ (idxs : List Nat), (∀ i ∈ idxs, i < circuits.length) →
      ∀ acc : Circuit,
        (idxs.foldlM
          (fun acc2 i =>
            if h : i < circuits.length then pure (acc2 ++ circuits.get ⟨i, h⟩)
            else throw Err.indexError)
          acc : Except Err Circuit) =
        .ok (acc ++ idxs.flatMap fun i => circuits.getD i []) := by
  intro idxs
  induction idxs with
  | nil =>
    intro _ acc
    simp only [List.foldlM_nil, List.flatMap_nil, List.append_nil]
    rfl
  | cons i rest ih =>
    intro hall acc
    have hi : i < circuits.length := hall i (List.mem_cons_self i rest)
    rw [List.foldlM_cons, dif_pos hi]
    rw [pure_bind]
    rw [ih (fun j hj => hall j (List.mem_cons_of_mem i hj))]
    have hget : circuits.get ⟨i, hi⟩ = circuits.getD i [] := by
      rw [List.getD_eq_getElem?_getD, List.getElem?_eq_getElem hi]
      rfl
    simp [hget, List.flatMap_cons, List.append_assoc, List.getElem?_eq_getElem hi]

theorem master_circuit_eq (circuits : List Circuit)
    (hlen : 21 ≤ circuits.length) :
    master_circuit circuits =
      .ok ((ord ++ ord).flatMap fun i => circuits.getD i []) := by
  have h21 : ∀ j ∈ ord, j < 21 := by decide
  have hall : ∀ i ∈ ord, i < circuits.length := fun i hi => by
    have := h21 i hi
    omega
  unfold master_circuit
  have hrange : List.range n = [0, 1] := rfl
  rw [hrange, List.foldlM_cons]
  rw [foldlM_compose circuits ord hall [], ok_bind, List.foldlM_cons,
    foldlM_compose circuits ord hall, ok_bind, List.foldlM_nil]
  simp [List.flatMap_append]
  rfl

/-- C3: the master circuit is exactly the concatenation, repeated `n = 2`
times, of the 21 per-group circuits in the hard-coded ordering `ord` (each
index therefore used exactly twice), where every per-group circuit is the
diagonalizing circuit, then the diagonal-Pauli circuit, then the inverse of
the diagonalizing circuit. -/
theorem claim_C3 (subsets : List (List WPauli)) (l : List Circuit)
    (hc : circuits_of subsets = .ok l) (hlen : 21 ≤ l.length) :
    build_master subsets = .ok ((ord ++ ord).flatMap fun i => l.getD i []) ∧
      (∀ i ∈ ord, (ord ++ ord).count i = 2) ∧
      ord = [6, 7, 9, 1, 11, 18, 4, 13, 12, 0, 19, 15, 17, 3, 5, 2, 20, 10, 8, 16, 14] ∧
      ord.length = 21 ∧
      l.length = subsets.length ∧
      ∀ k, k < subsets.length → ∃ dqc ds wqc,
        sim_cliff_diag ((subsets.getD k default).map (·.primitive)) = .ok (dqc, ds) ∧
        walk_paulis (new_paulis (subsets.getD k default) ds) = .ok wqc ∧
        l.getD k default = dqc ++ wqc ++ circ_inverse dqc := by
  obtain ⟨hlen2, hidx⟩ := mapM_except_ok _ subsets l hc
  refine ⟨?_, by decide, rfl, rfl, hlen2, ?_⟩
  · unfold build_master
    rw [hc]
    show master_circuit l = _
    exact master_circuit_eq l hlen
  · intro k hk
    have h := hidx k hk
    obtain ⟨pr, h1, h2⟩ := except_bind_ok h
    obtain ⟨wqc, hw, h3⟩ := except_bind_ok h2
    simp only [pure, Except.pure, Except.ok.injEq] at h3
    exact ⟨pr.1, pr.2, wqc, h1, hw, h3.symm⟩

/-- A single-qubit `Z` Pauli with coefficient 1, for the concrete runs. -/
def wpZ : WPauli := ⟨⟨[false], [true], 0⟩, 1⟩

/-- Twenty-one singleton commuting groups, enough for the hard-coded
ordering. -/
def subsW : List (List WPauli) := List.replicate 21 [wpZ]

/-- Concrete instantiation of `claim_C3` on 21 singleton `Z` groups. -/
theorem claim_C3_witness :
    circuits_of subsW = .ok (List.replicate 21 [Gate.rz 1 0]) ∧
      21 ≤ (List.replicate 21 [Gate.rz 1 0] : List Circuit).length ∧
      (build_master subsW = .ok ((ord ++ ord).flatMap fun i =>
          (List.replicate 21 [Gate.rz 1 0] : List Circuit).getD i []) ∧
        (∀ i ∈ ord, (ord ++ ord).count i = 2) ∧
        ord = [6, 7, 9, 1, 11, 18, 4, 13, 12, 0, 19, 15, 17, 3, 5, 2, 20, 10, 8, 16, 14] ∧
        ord.length = 21 ∧
        (List.replicate 21 [Gate.rz 1 0] : List Circuit).length = subsW.length ∧
        ∀ k, k < subsW.length → ∃ dqc ds wqc,
          sim_cliff_diag ((subsW.getD k default).map (·.primitive)) = .ok (dqc, ds) ∧
          walk_paulis (new_paulis (subsW.getD k default) ds) = .ok wqc ∧
          (List.replicate 21 [Gate.rz 1 0] : List Circuit).getD k default =
            dqc ++ wqc ++ circ_inverse dqc) :=
  ⟨by decide, by decide, claim_C3 subsW (List.replicate 21 [Gate.rz 1 0]) (by decide) (by decide)⟩

/-! ### C5 — the master circuit gate set (corrected: `sdg` appears) -/
/-- The gates `walk_paulis` can append: RZ, CNOT, Phase and X. -/
def isWalkGate : Gate → Bool
  | .rz _ _ => true
  | .cx _ _ => true
  | .p _ _ => true
  | .x _ => true
  | _ => false

/-- The gates `QuantumCircuit.inverse()` yields on a CNOT/H/S circuit:
CNOT, H and Sdg. -/
def isInvCHS : Gate → Bool
  | .h _ => true
  | .sdg _ => true
  | .cx _ _ => true
  | _ => false

theorem walk_rzfold_gates (dps : List WPauli) (start : List Char) (rq : Nat)
    (qc : Circuit) (hqc : ∀ gg ∈ qc, isWalkGate gg = true) :
    ∀ gg ∈ (dps.enum.foldl
      (fun acc ip =>
        if toLabel ip.2.primitive == start then
          (acc.1 ++ [ip.1], acc.2 ++ [.rz (2 * ip.2.coeff) rq])
        else acc)
      ([], qc)).2, isWalkGate gg = true := by
  refine foldl_inv _ (fun acc : List Nat × Circuit => ∀ gg ∈ acc.2, isWalkGate gg = true) ?_ _ ([], qc) hqc
  intro acc ip hs gg hg
  by_cases hl : toLabel ip.2.primitive == start
  · rw [if_pos hl] at hg
    rcases List.mem_append.mp hg with h1 | h1
    · exact hs gg h1
    · simp only [List.mem_cons, List.not_mem_nil, or_false] at h1
      subst h1
      rfl
  · rw [if_neg hl] at hg
    exact hs gg hg

theorem walk_gates (dps : List WPauli) (nq : Nat) :
    ∀ (fuel : Nat) (start : List Char) (qc : Circuit),
      (∀ gg ∈ qc, isWalkGate gg = true) →
      ∀ gg ∈ (walk dps nq fuel start qc).2, isWalkGate gg = true := by
  intro fuel
  induction fuel with
  | zero =>
    intro start qc hqc gg hg
    rw [walk] at hg
    by_cases hz : 'Z' ∈ start
    · rw [if_pos hz] at hg
      by_cases hlen : start.length = nq
      · rw [if_pos hlen] at hg
        exact walk_rzfold_gates dps start _ qc hqc gg hg
      · rw [if_neg hlen] at hg
        exact hqc gg hg
    · rw [if_neg hz] at hg
      by_cases hlt : start.length < nq
      · rw [if_pos hlt] at hg
        exact hqc gg hg
      · rw [if_neg hlt] at hg
        exact hqc gg hg
  | succ fuel ih =>
    intro start qc hqc gg hg
    rw [walk] at hg
    by_cases hz : 'Z' ∈ start
    · rw [if_pos hz] at hg
      by_cases hlen : start.length = nq
      · rw [if_pos hlen] at hg
        exact walk_rzfold_gates dps start _ qc hqc gg hg
      · rw [if_neg hlen] at hg
        have h1 : ∀ gg2 ∈ (walk dps nq fuel ('I' :: start) qc).2, isWalkGate gg2 = true :=
          ih ('I' :: start) qc hqc
        have h2 : ∀ gg2 ∈ (walk dps nq fuel ('I' :: start) qc).2 ++
            [Gate.cx start.length (start.reverse.findIdx fun c => c == 'Z')],
            isWalkGate gg2 = true := by
          intro gg2 hg2
          rcases List.mem_append.mp hg2 with h3 | h3
          · exact h1 gg2 h3
          · simp only [List.mem_cons, List.not_mem_nil, or_false] at h3
            subst h3
            rfl
        have h3 := ih ('Z' :: start) _ h2
        dsimp only at hg
        by_cases he : (walk dps nq fuel ('Z' :: start)
            ((walk dps nq fuel ('I' :: start) qc).2 ++
              [Gate.cx start.length (start.reverse.findIdx fun c => c == 'Z')])).1 = []
        · rw [if_pos he] at hg
          dsimp only at hg
          exact h3 gg ((List.dropLast_sublist _).subset hg)
        · rw [if_neg he] at hg
          dsimp only at hg
          rcases List.mem_append.mp hg with h4 | h4
          · exact h3 gg h4
          · simp only [List.mem_cons, List.not_mem_nil, or_false] at h4
            subst h4
            rfl
    · rw [if_neg hz] at hg
      by_cases hlt : start.length < nq
      · rw [if_pos hlt] at hg
        dsimp only at hg
        exact ih ('Z' :: start) _ (ih ('I' :: start) qc hqc) gg hg
      · rw [if_neg hlt] at hg
        exact hqc gg hg

theorem walk_paulis_gates (dps : List WPauli) (wqc : Circuit)
    (h : walk_paulis dps = .ok wqc) : ∀ gg ∈ wqc, isWalkGate gg = true := by
  cases dps with
  | nil => cases h
  | cons p0 rest =>
    unfold walk_paulis at h
    dsimp only at h
    have hbase : ∀ gg2 ∈ (walk (p0 :: rest) p0.primitive.z.length p0.primitive.z.length
        [] []).2, isWalkGate gg2 = true :=
      walk_gates _ _ _ [] [] (fun gg2 hg2 => absurd hg2 (List.not_mem_nil gg2))
    by_cases hgp : ((((p0 :: rest).filter fun p =>
        toLabel p.primitive == List.replicate p0.primitive.z.length 'I').map
          (fun p => p.coeff)).sum) ≠ 0
    · rw [if_pos hgp] at h
      cases h
      intro gg hg
      rcases List.mem_append.mp hg with h1 | h1
      · exact hbase gg h1
      · simp only [List.mem_cons, List.not_mem_nil, or_false] at h1
        rcases h1 with rfl | rfl | rfl | rfl <;> rfl
    · rw [if_neg hgp] at h
      cases h
      intro gg hg
      exact hbase gg hg

theorem circ_inverse_gates (qc : Circuit) (h : ∀ gg ∈ qc, isCHS gg = true) :
    ∀ gg ∈ circ_inverse qc, isInvCHS gg = true := by
  intro gg hg
  unfold circ_inverse at hg
  obtain ⟨g2, hg2, he⟩ := List.mem_map.mp hg
  have h2 := h g2 (List.mem_reverse.mp hg2)
  subst he
  cases g2 <;> first | rfl | cases h2

/-- Every gate of a successful `master_circuit` lies in one of the picked
group circuits. -/
theorem master_circuit_mem (l : List Circuit) (mc : Circuit)
    (h : master_circuit l = .ok mc) : ∀ gg ∈ mc, ∃ cc ∈ l, gg ∈ cc := by
  unfold master_circuit at h
  refine foldlM_except_inv _ (fun c : Circuit => ∀ gg ∈ c, ∃ cc ∈ l, gg ∈ cc) ?_
    _ [] mc h (fun gg hg => absurd hg (List.not_mem_nil gg))
  intro s a s3 hf hs
  refine foldlM_except_inv _ (fun c : Circuit => ∀ gg ∈ c, ∃ cc ∈ l, gg ∈ cc) ?_
    _ s s3 hf hs
  intro s1 i s2 hf1 hs1 gg hg
  by_cases hi : i < l.length
  · rw [dif_pos hi] at hf1
    cases hf1
    rcases List.mem_append.mp hg with h1 | h1
    · exact hs1 gg h1
    · exact ⟨l.get ⟨i, hi⟩, List.get_mem l i hi, h1⟩
  · rw [dif_neg hi] at hf1
    cases hf1

/-- The per-group circuit decomposition delivered by `circuits_of`. -/
theorem circuits_of_mem (subsets : List (List WPauli)) (l : List Circuit)
    (hc : circuits_of subsets = .ok l) :
    ∀ cc ∈ l, ∃ ps dqc ds wqc,
      sim_cliff_diag (ps.map (·.primitive)) = .ok (dqc, ds) ∧
      walk_paulis (new_paulis ps ds) = .ok wqc ∧
      cc = dqc ++ wqc ++ circ_inverse dqc := by
  intro cc hcc
  obtain ⟨hlen, hidx⟩ := mapM_except_ok _ subsets l hc
  obtain ⟨k, hk, he⟩ := List.mem_iff_getElem.mp hcc
  have hgd : l.getD k default = cc := by
    rw [List.getD_eq_getElem?_getD, List.getElem?_eq_getElem hk, he]
    rfl
  have h := hidx k (by omega)
  rw [hgd] at h
  obtain ⟨pr, h1, h2⟩ := except_bind_ok h
  obtain ⟨wqc, hw, h3⟩ := except_bind_ok h2
  simp only [pure, Except.pure, Except.ok.injEq] at h3
  exact ⟨subsets.getD k default, pr.1, pr.2, wqc, h1, hw, h3.symm⟩

/-- C5 (amended): every gate of the emitted master circuit is a single-qubit
gate or a CNOT, and the per-group circuits decompose into a CNOT/H/S
diagonalizing part, an RZ/CNOT/P/X diagonal-Pauli part, and a CNOT/H/Sdg
inverse part — so the single-qubit gate names are h, s, sdg, rz, p, x. -/
theorem claim_C5 (subsets : List (List WPauli)) (l : List Circuit) (mc : Circuit)
    (hc : circuits_of subsets = .ok l) (hm : master_circuit l = .ok mc) :
    (∀ gg ∈ mc,
      (∃ q, gateQubits gg = [q] ∧
        gateName gg ∈ (["h", "s", "sdg", "rz", "p", "x"] : List String)) ∨
      ∃ a b, gg = Gate.cx a b ∧ gateQubits gg = [a, b]) ∧
    ∀ cc ∈ l, ∃ dqc wqc,
      cc = dqc ++ wqc ++ circ_inverse dqc ∧
      (∀ gg ∈ dqc, isCHS gg = true) ∧
      (∀ gg ∈ wqc, isWalkGate gg = true) ∧
      (∀ gg ∈ circ_inverse dqc, isInvCHS gg = true) := by
  have hdecomp : ∀ cc ∈ l, ∃ dqc wqc,
      cc = dqc ++ wqc ++ circ_inverse dqc ∧
      (∀ gg ∈ dqc, isCHS gg = true) ∧
      (∀ gg ∈ wqc, isWalkGate gg = true) ∧
      (∀ gg ∈ circ_inverse dqc, isInvCHS gg = true) := by
    intro cc hcc
    obtain ⟨ps, dqc, ds, wqc, h1, hw, he⟩ := circuits_of_mem subsets l hc cc hcc
    have hd := (sim_cliff_diag_props _ _ _ h1).2
    exact ⟨dqc, wqc, he, hd, walk_paulis_gates _ _ hw, circ_inverse_gates dqc hd⟩
  refine ⟨?_, hdecomp⟩
  intro gg hg
  obtain ⟨cc, hcc, hgcc⟩ := master_circuit_mem l mc hm gg hg
  obtain ⟨dqc, wqc, he, hd, hwg, hig⟩ := hdecomp cc hcc
  subst he
  have hname : gateName gg ∈ (["h", "s", "sdg", "rz", "p", "x", "cx"] : List String) := by
    cases gg <;> simp [gateName]
  cases gg with
  | cx a b => exact Or.inr ⟨a, b, rfl, rfl⟩
  | h q => exact Or.inl ⟨q, rfl, by simp [gateName]⟩
  | s q =>
    refine Or.inl ⟨q, rfl, by simp [gateName]⟩
  | sdg q => exact Or.inl ⟨q, rfl, by simp [gateName]⟩
  | x q => exact Or.inl ⟨q, rfl, by simp [gateName]⟩
  | rz theta q => exact Or.inl ⟨q, rfl, by simp [gateName]⟩
  | p theta q => exact Or.inl ⟨q, rfl, by simp [gateName]⟩

/-- A single-qubit `Y` Pauli with coefficient 1; its diagonalization keeps
an `s` gate, whose inverse is `sdg`. -/
def wpY : WPauli := ⟨⟨[true], [true], 0⟩, 1⟩

/-- The gate set named by the claim: h, s, rz, p, x and CNOT — without sdg. -/
def claimedGate (gg : Gate) : Bool :=
  gateName gg == "h" || gateName gg == "s" || gateName gg == "rz" ||
    gateName gg == "p" || gateName gg == "x" || gateName gg == "cx"

set_option maxRecDepth 40000 in
/-- C5 counterexample: on 21 groups holding the Pauli `Y`, the emitted master
circuit contains `sdg` (from the inverted `s` of the diagonalizing circuit),
violating the claimed gate enumeration. -/
theorem claim_C5_counterexample :
    build_master (List.replicate 21 [wpY]) =
        .ok ((List.replicate 42
          [Gate.s 0, Gate.h 0, Gate.rz (-1) 0, Gate.h 0, Gate.sdg 0]).flatten) ∧
      ((List.replicate 42
          [Gate.s 0, Gate.h 0, Gate.rz (-1) 0, Gate.h 0, Gate.sdg 0]).flatten).all
          claimedGate = false :=
  ⟨by decide, by decide⟩

set_option maxRecDepth 40000 in
/-- Concrete instantiation of `claim_C5` on 21 `Y`-singleton groups. -/
theorem claim_C5_witness :
    circuits_of (List.replicate 21 [wpY]) =
        .ok (List.replicate 21
          [Gate.s 0, Gate.h 0, Gate.rz (-1) 0, Gate.h 0, Gate.sdg 0]) ∧
      master_circuit (List.replicate 21
          [Gate.s 0, Gate.h 0, Gate.rz (-1) 0, Gate.h 0, Gate.sdg 0]) =
        .ok ((List.replicate 42
          [Gate.s 0, Gate.h 0, Gate.rz (-1) 0, Gate.h 0, Gate.sdg 0]).flatten) ∧
      ((∀ gg ∈ (List.replicate 42
          [Gate.s 0, Gate.h 0, Gate.rz (-1) 0, Gate.h 0, Gate.sdg 0]).flatten,
        (∃ q, gateQubits gg = [q] ∧
          gateName gg ∈ (["h", "s", "sdg", "rz", "p", "x"] : List String)) ∨
        ∃ a b, gg = Gate.cx a b ∧ gateQubits gg = [a, b]) ∧
      ∀ cc ∈ List.replicate 21
          [Gate.s 0, Gate.h 0, Gate.rz (-1) 0, Gate.h 0, Gate.sdg 0], ∃ dqc wqc,
        cc = dqc ++ wqc ++ circ_inverse dqc ∧
        (∀ gg ∈ dqc, isCHS gg = true) ∧
        (∀ gg ∈ wqc, isWalkGate gg = true) ∧
        (∀ gg ∈ circ_inverse dqc, isInvCHS gg = true)) :=
  ⟨by decide, by decide,
    claim_C5 (List.replicate 21 [wpY])
      (List.replicate 21 [Gate.s 0, Gate.h 0, Gate.rz (-1) 0, Gate.h 0, Gate.sdg 0])
      ((List.replicate 42
        [Gate.s 0, Gate.h 0, Gate.rz (-1) 0, Gate.h 0, Gate.sdg 0]).flatten)
      (by decide) (by decide)⟩

/-! ### C6 — determinism, and C8 — the input-file parser -/
/-- C6: the computation is deterministic — two runs of the script on the same
input text produce the same outcome, in particular the same emitted circuit
and the same printed depth (the printed approximation error is a further
function of that circuit).  In the shallow embedding the script is a pure
function of the file text, so equal inputs give equal run results. -/
theorem claim_C6 (content : String) (o1 o2 : Except Err (Circuit × Nat))
    (h1 : run_script content = o1) (h2 : run_script content = o2) : o1 = o2 := by
  rw [← h1, ← h2]

/-- Concrete instantiation of `claim_C6` (two runs on the empty file). -/
theorem claim_C6_witness :
    run_script "" = .error Err.indexError ∧ run_script "" = .error Err.indexError ∧
      (Except.error Err.indexError : Except Err (Circuit × Nat)) =
        .error Err.indexError :=
  ⟨by decide, by decide,
    claim_C6 "" (.error Err.indexError) (.error Err.indexError) (by decide) (by decide)⟩

theorem option_bind_eq_some {α β : Type} {e : Option α} {f : α → Option β} {r : β}
    (h : e.bind f = some r) : ∃ a, e = some a ∧ f a = some r := by
  cases e with
  | none => cases h
  | some a => exact ⟨a, rfl, h⟩

theorem mapM_option_ok {α β : Type} [Inhabited α] [Inhabited β] (f : α → Option β) :
    ∀ (xs : List α) (ys : List β), xs.mapM f = some ys →
      ys.length = xs.length ∧
        ∀ k, k < xs.length → f (xs.getD k default) = some (ys.getD k default) := by
  intro xs
  induction xs with
  | nil =>
    intro ys h
    simp only [List.mapM_nil, pure, Option.pure_def, Option.some.injEq] at h
    cases h
    exact ⟨rfl, fun k hk => absurd hk (by simp)⟩
  | cons x xs ih =>
    intro ys h
    rw [List.mapM_cons] at h
    simp only [bind, Option.bind_eq_bind] at h
    obtain ⟨y, hy, h2⟩ := option_bind_eq_some h
    obtain ⟨ys2, hys2, h3⟩ := option_bind_eq_some h2
    simp only [pure, Option.pure_def, Option.some.injEq] at h3
    subst h3
    obtain ⟨hlen, hidx⟩ := ih ys2 hys2
    refine ⟨by simp [hlen], fun k hk => ?_⟩
    cases k with
    | zero => simpa using hy
    | succ k2 =>
      simp only [List.getD_cons_succ]
      exact hidx k2 (by simpa using hk)

/-- What a successful `parse_line` tells about the line. -/
theorem parse_line_inv (line : List Char) (t : WPauli)
    (h : parse_line line = some t) :
    ∃ sign prefactor w ps v,
      splitOnChar ' ' (stripChars line) = [sign, prefactor, w, ps] ∧
      floatQ prefactor = some v ∧
      parseLabel ps = some t.primitive ∧
      t.coeff = (if sign = ['-'] then (-1 : Q) else 1) * v := by
  unfold parse_line at h
  cases hsp : splitOnChar ' ' (stripChars line) with
  | nil => rw [hsp] at h; cases h
  | cons sign l1 =>
    cases l1 with
    | nil => rw [hsp] at h; cases h
    | cons prefactor l2 =>
      cases l2 with
      | nil => rw [hsp] at h; cases h
      | cons w l3 =>
        cases l3 with
        | nil => rw [hsp] at h; cases h
        | cons ps l4 =>
          cases l4 with
          | nil =>
            rw [hsp] at h
            dsimp only at h
            obtain ⟨v, hv, h2⟩ := option_bind_eq_some h
            obtain ⟨prim, hprim, h3⟩ := Option.map_eq_some'.mp h2
            subst h3
            exact ⟨sign, prefactor, w, ps, v, rfl, hv, hprim, rfl⟩
          | cons e l5 => rw [hsp] at h; cases h

/-- C8: a successful parse yields one weighted term per non-empty line; each
line splits on single spaces into exactly four fields — sign, coefficient, a
discarded field and the Pauli label — and the parsed coefficient is the
parsed number negated exactly when the sign field is `-`. -/
theorem claim_C8 (content : String) (ts : List WPauli)
    (h : parse_file content = some ts) :
    ts.length = ((splitOnChar '\n' content.toList).filter fun l => l ≠ []).length ∧
      ∀ k, k < ts.length → ∃ sign prefactor w ps v,
        splitOnChar ' ' (stripChars
          (((splitOnChar '\n' content.toList).filter fun l => l ≠ []).getD k default)) =
          [sign, prefactor, w, ps] ∧
        floatQ prefactor = some v ∧
        parseLabel ps = some (ts.getD k default).primitive ∧
        (ts.getD k default).coeff = (if sign = ['-'] then (-1 : Q) else 1) * v := by
  unfold parse_file at h
  obtain ⟨hlen, hidx⟩ := mapM_option_ok parse_line _ ts h
  refine ⟨hlen, fun k hk => ?_⟩
  exact parse_line_inv _ _ (hidx k (by omega))

/-- Concrete instantiation of `claim_C8` on a two-line input. -/
theorem claim_C8_witness :
    parse_file "- 0.5 ab ZZ\n+ 1.5 cd XI" =
        some [⟨⟨[false, false], [true, true], 0⟩, ⟨-1, 2⟩⟩,
          ⟨⟨[false, true], [false, false], 0⟩, ⟨3, 2⟩⟩] ∧
      (([⟨⟨[false, false], [true, true], 0⟩, ⟨-1, 2⟩⟩,
          (⟨⟨[false, true], [false, false], 0⟩, ⟨3, 2⟩⟩ : WPauli)]).length =
        ((splitOnChar '\n' ("- 0.5 ab ZZ\n+ 1.5 cd XI").toList).filter
          fun l => l ≠ []).length ∧
      ∀ k, k < ([⟨⟨[false, false], [true, true], 0⟩, ⟨-1, 2⟩⟩,
          (⟨⟨[false, true], [false, false], 0⟩, ⟨3, 2⟩⟩ : WPauli)]).length →
        ∃ sign prefactor w ps v,
        splitOnChar ' ' (stripChars
          (((splitOnChar '\n' ("- 0.5 ab ZZ\n+ 1.5 cd XI").toList).filter
            fun l => l ≠ []).getD k default)) =
          [sign, prefactor, w, ps] ∧
        floatQ prefactor = some v ∧
        parseLabel ps = some (([⟨⟨[false, false], [true, true], 0⟩, ⟨-1, 2⟩⟩,
          (⟨⟨[false, true], [false, false], 0⟩, ⟨3, 2⟩⟩ : WPauli)]).getD k
            default).primitive ∧
        (([⟨⟨[false, false], [true, true], 0⟩, ⟨-1, 2⟩⟩,
          (⟨⟨[false, true], [false, false], 0⟩, ⟨3, 2⟩⟩ : WPauli)]).getD k
            default).coeff = (if sign = ['-'] then (-1 : Q) else 1) * v) :=
  ⟨by decide,
    claim_C8 "- 0.5 ab ZZ\n+ 1.5 cd XI"
      [⟨⟨[false, false], [true, true], 0⟩, ⟨-1, 2⟩⟩,
        ⟨⟨[false, true], [false, false], 0⟩, ⟨3, 2⟩⟩] (by decide)⟩

/-! ### C9 — the Hadamard-removal cleanup (corrected: it is only
unitary-preserving when no index is collected twice) -/
/-- Does a gate act on qubit `q`? -/
def touches (q : Nat) (gg : Gate) : Bool := q ∈ gateQubits gg

/-- A quantum state on the register, as an amplitude for every classical
bit-assignment. -/
def V : Type := (Nat → Bool) → ℂ

/-- Modelled from the spec: the standard unitary semantics of the qiskit
gates the notebook uses (`h`, `s`, `sdg`, `x`, `rz`, `p`, `cx`), acting on
amplitude vectors.  `Q.toRat` maps the exact rational angles into `ℝ`. -/
noncomputable def applyGate : Gate → V → V
  | .h q, psi => fun f =>
    (psi (Function.update f q false) +
      (if f q then -1 else 1) * psi (Function.update f q true)) / (Real.sqrt 2 : ℝ)
  | .s q, psi => fun f => (if f q then Complex.I else 1) * psi f
  | .sdg q, psi => fun f => (if f q then -Complex.I else 1) * psi f
  | .x q, psi => fun f => psi (Function.update f q (!f q))
  | .rz theta q, psi => fun f =>
    Complex.exp (Complex.I * ((theta.toRat : ℂ) / 2) * (if f q then 1 else -1)) * psi f
  | .p theta q, psi => fun f =>
    (if f q then Complex.exp (Complex.I * (theta.toRat : ℂ)) else 1) * psi f
  | .cx c t, psi => fun f => psi (if f c then Function.update f t (!f t) else f)

/-- The operator a circuit denotes: apply its gates in order. -/
noncomputable def sem (qc : Circuit) (psi : V) : V :=
  qc.foldl (fun acc gg => applyGate gg acc) psi

theorem sem_append (l1 l2 : Circuit) (psi : V) :
    sem (l1 ++ l2) psi = sem l2 (sem l1 psi) := by
  unfold sem
  rw [List.foldl_append]

theorem sem_cons (gg : Gate) (l : Circuit) (psi : V) :
    sem (gg :: l) psi = sem l (applyGate gg psi) := rfl

/-- Two Hadamards on the same qubit cancel. -/
theorem applyH_applyH (q : Nat) (psi : V) :
    applyGate (.h q) (applyGate (.h q) psi) = psi := by
  funext f
  simp only [applyGate]
  have hs2 : ((Real.sqrt 2 : ℝ) : ℂ) * ((Real.sqrt 2 : ℝ) : ℂ) = 2 := by
    rw [← Complex.ofReal_mul, Real.mul_self_sqrt (by norm_num)]
    norm_num
  have hne : ((Real.sqrt 2 : ℝ) : ℂ) ≠ 0 := by
    simp only [ne_eq, Complex.ofReal_eq_zero]
    positivity
  have hsq : ((Real.sqrt 2 : ℝ) : ℂ) ^ 2 = 2 := by rw [sq, hs2]
  by_cases hq : f q
  · simp only [hq, if_true, Function.update_idem, Function.update_same]
    rw [show Function.update f q true = f from by
      rw [← hq]; exact Function.update_eq_self q f]
    field_simp
    linear_combination (-psi f) * hsq
  · simp only [hq, if_false, Function.update_idem, Function.update_same]
    rw [show Function.update f q false = f from by
      rw [show false = f q from by simp [hq]]; exact Function.update_eq_self q f]
    field_simp
    linear_combination (-psi f) * hsq



/-- A Hadamard on `q` commutes with every gate not touching `q`. -/
theorem applyGate_comm_h (q : Nat) (gg : Gate) (hq : touches q gg = false) (psi : V) :
    applyGate gg (applyGate (.h q) psi) = applyGate (.h q) (applyGate gg psi) := by
  cases gg with
  | h q2 =>
    have hne : q ≠ q2 := by simpa [touches, gateQubits] using hq
    funext f
    simp only [applyGate]
    have hcomm : ∀ b1 b2 : Bool,
        Function.update (Function.update f q b1) q2 b2 =
          Function.update (Function.update f q2 b2) q b1 :=
      fun b1 b2 => Function.update_comm hne b1 b2 f
    have hv1 : ∀ b2 : Bool, (Function.update f q2 b2) q = f q :=
      fun b2 => Function.update_noteq hne b2 f
    have hv2 : ∀ b1 : Bool, (Function.update f q b1) q2 = f q2 :=
      fun b1 => Function.update_noteq hne.symm b1 f
    simp only [hcomm, hv1, hv2]
    ring
  | s q2 =>
    have hne : q ≠ q2 := by simpa [touches, gateQubits] using hq
    funext f
    simp only [applyGate]
    have hv2 : ∀ b1 : Bool, (Function.update f q b1) q2 = f q2 :=
      fun b1 => Function.update_noteq hne.symm b1 f
    simp only [hv2]
    ring
  | sdg q2 =>
    have hne : q ≠ q2 := by simpa [touches, gateQubits] using hq
    funext f
    simp only [applyGate]
    have hv2 : ∀ b1 : Bool, (Function.update f q b1) q2 = f q2 :=
      fun b1 => Function.update_noteq hne.symm b1 f
    simp only [hv2]
    ring
  | rz theta q2 =>
    have hne : q ≠ q2 := by simpa [touches, gateQubits] using hq
    funext f
    simp only [applyGate]
    have hv2 : ∀ b1 : Bool, (Function.update f q b1) q2 = f q2 :=
      fun b1 => Function.update_noteq hne.symm b1 f
    simp only [hv2]
    ring
  | p theta q2 =>
    have hne : q ≠ q2 := by simpa [touches, gateQubits] using hq
    funext f
    simp only [applyGate]
    have hv2 : ∀ b1 : Bool, (Function.update f q b1) q2 = f q2 :=
      fun b1 => Function.update_noteq hne.symm b1 f
    simp only [hv2]
    ring
  | x q2 =>
    have hne : q ≠ q2 := by simpa [touches, gateQubits] using hq
    funext f
    simp only [applyGate]
    have hcomm : ∀ b1 b2 : Bool,
        Function.update (Function.update f q b1) q2 b2 =
          Function.update (Function.update f q2 b2) q b1 :=
      fun b1 b2 => Function.update_comm hne b1 b2 f
    have hv1 : ∀ b2 : Bool, (Function.update f q2 b2) q = f q :=
      fun b2 => Function.update_noteq hne b2 f
    have hv2 : ∀ b1 : Bool, (Function.update f q b1) q2 = f q2 :=
      fun b1 => Function.update_noteq hne.symm b1 f
    simp only [hv1, hv2, hcomm]
  | cx c t =>
    have hne : q ≠ c ∧ q ≠ t := by
      constructor <;> (intro he; subst he; simp [touches, gateQubits] at hq)
    obtain ⟨hc, ht⟩ := hne
    funext f
    simp only [applyGate]
    have hfc : ∀ b1 : Bool, (Function.update f q b1) c = f c :=
      fun b1 => Function.update_noteq hc.symm b1 f
    have hft : ∀ b1 : Bool, (Function.update f q b1) t = f t :=
      fun b1 => Function.update_noteq ht.symm b1 f
    by_cases hfcv : f c = true
    · simp only [hfc, hfcv, if_true]
      have hcomm : ∀ b1 b2 : Bool,
          Function.update (Function.update f q b1) t b2 =
            Function.update (Function.update f t b2) q b1 :=
        fun b1 b2 => Function.update_comm ht b1 b2 f
      have hvq : ∀ b2 : Bool, (Function.update f t b2) q = f q :=
        fun b2 => Function.update_noteq ht b2 f
      simp only [hft, hcomm, hvq]
    · have hfc2 : f c = false := by simpa using hfcv
      simp [hfc, hfc2]



theorem sem_through (q : Nat) (B : Circuit) (hB : ∀ gg ∈ B, touches q gg = false)
    (psi : V) : sem B (applyGate (.h q) psi) = applyGate (.h q) (sem B psi) := by
  induction B generalizing psi with
  | nil => rfl
  | cons gg gs ih =>
    rw [sem_cons, sem_cons, applyGate_comm_h q gg (hB gg (List.mem_cons_self gg gs))]
    exact ih (fun g2 hg2 => hB g2 (List.mem_cons_of_mem gg hg2)) (applyGate gg psi)

/-- Removing a Hadamard pair whose between-gates avoid its qubit preserves
the denoted operator. -/
theorem sem_cancel_pair (q : Nat) (A B C : Circuit)
    (hB : ∀ gg ∈ B, touches q gg = false) (psi : V) :
    sem (A ++ (Gate.h q :: (B ++ (Gate.h q :: C)))) psi = sem (A ++ (B ++ C)) psi := by
  rw [sem_append, sem_append]
  generalize sem A psi = psi2
  rw [sem_cons, sem_append, sem_cons, sem_through q B hB psi2, applyH_applyH,
    sem_append]

/-- Keep the gates whose position (starting at `i`) is not in `rem`. -/
def keptFrom (rem : List Nat) : Nat → List Gate → List Gate
  | _, [] => []
  | i, gg :: gs =>
    if i ∈ rem then keptFrom rem (i + 1) gs else gg :: keptFrom rem (i + 1) gs

/-- The circuit left after deleting the positions in `rem`. -/
def keptIdx (qc : Circuit) (rem : List Nat) : Circuit := keptFrom rem 0 qc

theorem keptFrom_nil (i : Nat) (l : List Gate) : keptFrom [] i l = l := by
  induction l generalizing i with
  | nil => rfl
  | cons gg gs ih => simp [keptFrom, ih]

theorem keptFrom_congr (rem1 rem2 : List Nat) (hiff : ∀ a, a ∈ rem1 ↔ a ∈ rem2) :
    ∀ (l : List Gate) (i : Nat), keptFrom rem1 i l = keptFrom rem2 i l := by
  intro l
  induction l with
  | nil => intro i; rfl
  | cons gg gs ih =>
    intro i
    unfold keptFrom
    by_cases hi : i ∈ rem1
    · rw [if_pos hi, if_pos ((hiff i).mp hi), ih]
    · rw [if_neg hi, if_neg (fun hc => hi ((hiff i).mpr hc)), ih]

theorem keptFrom_extra (rem : List Nat) (x : Nat) :
    ∀ (l : List Gate) (i : Nat), (∀ m, i ≤ m → m < i + l.length → m ≠ x) →
      keptFrom (x :: rem) i l = keptFrom rem i l := by
  intro l
  induction l with
  | nil => intro i _; rfl
  | cons gg gs ih =>
    intro i hx
    have hix : i ≠ x := hx i (Nat.le_refl i) (by simp)
    unfold keptFrom
    have hmem : (i ∈ x :: rem) ↔ i ∈ rem := by
      simp only [List.mem_cons]
      constructor
      · rintro (rfl | h)
        · exact absurd rfl hix
        · exact h
      · exact Or.inr
    have hrest : keptFrom (x :: rem) (i + 1) gs = keptFrom rem (i + 1) gs :=
      ih (i + 1) (fun m hm1 hm2 => hx m (by omega) (by simp at hm2 ⊢; omega))
    by_cases hi : i ∈ rem
    · rw [if_pos (hmem.mpr hi), if_pos hi, hrest]
    · rw [if_neg (fun hc => hi (hmem.mp hc)), if_neg hi, hrest]

theorem keptFrom_append (rem : List Nat) :
    ∀ (l1 l2 : List Gate) (i : Nat),
      keptFrom rem i (l1 ++ l2) = keptFrom rem i l1 ++ keptFrom rem (i + l1.length) l2 := by
  intro l1
  induction l1 with
  | nil => intro l2 i; simp [keptFrom]
  | cons gg gs ih =>
    intro l2 i
    unfold keptFrom
    simp only [List.cons_append]
    by_cases hi : i ∈ rem
    · rw [if_pos hi, if_pos hi, ih]
      simp only [List.length_cons]
      rw [show i + 1 + gs.length = i + (gs.length + 1) from by omega]
      cases l2 <;> rfl
    · rw [if_neg hi, if_neg hi, ih]
      simp only [List.cons_append, List.length_cons]
      rw [show i + 1 + gs.length = i + (gs.length + 1) from by omega]
      cases l2 <;> rfl

theorem keptFrom_subset (rem : List Nat) :
    ∀ (l : List Gate) (i : Nat) (gg : Gate), gg ∈ keptFrom rem i l → gg ∈ l := by
  intro l
  induction l with
  | nil => intro i gg hg; cases hg
  | cons g2 gs ih =>
    intro i gg hg
    unfold keptFrom at hg
    by_cases hi : i ∈ rem
    · rw [if_pos hi] at hg
      exact List.mem_cons_of_mem g2 (ih (i + 1) gg hg)
    · rw [if_neg hi] at hg
      rcases List.mem_cons.mp hg with h1 | h1
      · exact h1 ▸ List.mem_cons_self g2 gs
      · exact List.mem_cons_of_mem g2 (ih (i + 1) gg h1)



theorem getD_at (l : List Gate) (i : Nat) (h : i < l.length) :
    l.getD i default = l[i] := by
  rw [List.getD_eq_getElem?_getD, List.getElem?_eq_getElem h]
  rfl

theorem keptFrom_cons_mem {rem : List Nat} {i : Nat} (gg : Gate) (gs : List Gate)
    (h : i ∈ rem) : keptFrom rem i (gg :: gs) = keptFrom rem (i + 1) gs := by
  unfold keptFrom
  rw [if_pos h]
  cases gs <;> rfl

theorem keptFrom_cons_notmem {rem : List Nat} {i : Nat} (gg : Gate) (gs : List Gate)
    (h : i ∉ rem) : keptFrom rem i (gg :: gs) = gg :: keptFrom rem (i + 1) gs := by
  unfold keptFrom
  rw [if_neg h]
  cases gs <;> rfl

/-- Deleting one valid Hadamard pair (on top of other deletions that avoid
its positions) preserves the denoted operator. -/
theorem kept_pair_sem (qc : Circuit) (rem : List Nat) (a b q : Nat)
    (hab : a < b) (hb : b < qc.length)
    (hga : qc.getD a default = .h q) (hgb : qc.getD b default = .h q)
    (hmid : ∀ m, a < m → m < b → touches q (qc.getD m default) = false)
    (hna : a ∉ rem) (hnb : b ∉ rem) (psi : V) :
    sem (keptIdx qc (a :: b :: rem)) psi = sem (keptIdx qc rem) psi := by
  have ha : a < qc.length := Nat.lt_trans hab hb
  have hlen1 : (qc.take a).length = a := by
    rw [List.length_take]
    omega
  have hlen2 : ((qc.drop (a + 1)).take (b - a - 1)).length = b - a - 1 := by
    rw [List.length_take, List.length_drop]
    omega
  have hdec : qc = qc.take a ++ (Gate.h q ::
      ((qc.drop (a + 1)).take (b - a - 1) ++ (Gate.h q :: qc.drop (b + 1)))) := by
    conv_lhs => rw [← List.take_append_drop a qc]
    rw [List.drop_eq_getElem_cons ha, ← getD_at qc a ha, hga]
    congr 2
    conv_lhs => rw [← List.take_append_drop (b - a - 1) (qc.drop (a + 1))]
    rw [List.drop_drop]
    rw [show a + 1 + (b - a - 1) = b from by omega]
    rw [List.drop_eq_getElem_cons hb, ← getD_at qc b hb, hgb]
  have hmid2 : ∀ gg ∈ (qc.drop (a + 1)).take (b - a - 1), touches q gg = false := by
    intro gg hg
    obtain ⟨j, hj, he⟩ := List.mem_iff_getElem.mp hg
    rw [hlen2] at hj
    have he2 : qc.getD (a + 1 + j) default = gg := by
      rw [getD_at qc _ (by omega), ← he, List.getElem_take, List.getElem_drop]
    have hm := hmid (a + 1 + j) (by omega) (by omega)
    rw [he2] at hm
    exact hm
  -- compute both kept lists from the decomposition
  have hkeep : keptIdx qc rem = keptFrom rem 0 (qc.take a) ++
      (Gate.h q :: (keptFrom rem (a + 1) ((qc.drop (a + 1)).take (b - a - 1)) ++
        (Gate.h q :: keptFrom rem (b + 1) (qc.drop (b + 1))))) := by
    unfold keptIdx
    conv_lhs => rw [hdec]
    rw [keptFrom_append, hlen1, Nat.zero_add, keptFrom_cons_notmem _ _ hna,
      keptFrom_append, hlen2, show a + 1 + (b - a - 1) = b from by omega,
      keptFrom_cons_notmem _ _ hnb]
  have hextra1 : keptFrom (a :: b :: rem) 0 (qc.take a) = keptFrom rem 0 (qc.take a) := by
    rw [keptFrom_extra _ a _ 0 (fun m h1 h2 => by rw [hlen1] at h2; omega),
      keptFrom_extra _ b _ 0 (fun m h1 h2 => by rw [hlen1] at h2; omega)]
  have hextra2 : keptFrom (a :: b :: rem) (a + 1) ((qc.drop (a + 1)).take (b - a - 1)) =
      keptFrom rem (a + 1) ((qc.drop (a + 1)).take (b - a - 1)) := by
    rw [keptFrom_extra _ a _ (a + 1) (fun m h1 h2 => by omega),
      keptFrom_extra _ b _ (a + 1) (fun m h1 h2 => by rw [hlen2] at h2; omega)]
  have hextra3 : keptFrom (a :: b :: rem) (b + 1) (qc.drop (b + 1)) =
      keptFrom rem (b + 1) (qc.drop (b + 1)) := by
    rw [keptFrom_extra _ a _ (b + 1) (fun m h1 h2 => by omega),
      keptFrom_extra _ b _ (b + 1) (fun m h1 h2 => by omega)]
  have hkeep2 : keptIdx qc (a :: b :: rem) = keptFrom rem 0 (qc.take a) ++
      (keptFrom rem (a + 1) ((qc.drop (a + 1)).take (b - a - 1)) ++
        keptFrom rem (b + 1) (qc.drop (b + 1))) := by
    unfold keptIdx
    conv_lhs => rw [hdec]
    rw [keptFrom_append, hlen1, Nat.zero_add, hextra1,
      keptFrom_cons_mem _ _ (List.mem_cons_self a (b :: rem)),
      keptFrom_append, hlen2, show a + 1 + (b - a - 1) = b from by omega, hextra2,
      keptFrom_cons_mem _ _ (List.mem_cons_of_mem a (List.mem_cons_self b rem)),
      hextra3]
  rw [hkeep, hkeep2]
  exact (sem_cancel_pair q _ _ _
    (fun gg hg => hmid2 gg (keptFrom_subset rem _ _ gg hg)) psi).symm



/-- A valid removable pair: two Hadamards on the same qubit with no
intervening gate touching that qubit. -/
def validPair (qc : Circuit) (pr : Nat × Nat) : Prop :=
  pr.1 < pr.2 ∧ pr.2 < qc.length ∧ ∃ q,
    qc.getD pr.1 default = Gate.h q ∧ qc.getD pr.2 default = Gate.h q ∧
    ∀ m, pr.1 < m → m < pr.2 → touches q (qc.getD m default) = false

/-- The indices of a pair list, flattened in order. -/
def flatPairs (pairs : List (Nat × Nat)) : List Nat :=
  pairs.flatMap fun pr => [pr.1, pr.2]

theorem kept_pairs_sem (qc : Circuit) :
    ∀ pairs : List (Nat × Nat), (∀ pr ∈ pairs, validPair qc pr) →
      (flatPairs pairs).Nodup →
      ∀ psi, sem (keptIdx qc (flatPairs pairs)) psi = sem qc psi := by
  intro pairs
  induction pairs with
  | nil =>
    intro _ _ psi
    unfold keptIdx flatPairs
    rw [List.flatMap_nil, keptFrom_nil]
  | cons pr rest ih =>
    intro hvalid hnd psi
    have hflat : flatPairs (pr :: rest) = pr.1 :: pr.2 :: flatPairs rest := by
      unfold flatPairs
      rw [List.flatMap_cons]
      rfl
    rw [hflat] at hnd ⊢
    obtain ⟨hab, hb, q, hga, hgb, hmid⟩ := hvalid pr (List.mem_cons_self pr rest)
    have hna : pr.1 ∉ flatPairs rest := by
      have := hnd
      simp only [List.nodup_cons] at this
      intro hc
      exact this.1 (List.mem_cons_of_mem pr.2 hc)
    have hnb : pr.2 ∉ flatPairs rest := by
      have := hnd
      simp only [List.nodup_cons] at this
      exact fun hc => this.2.1 hc
    have hnd2 : (flatPairs rest).Nodup := by
      simp only [List.nodup_cons] at hnd
      exact hnd.2.2
    rw [kept_pair_sem qc (flatPairs rest) pr.1 pr.2 q hab hb hga hgb hmid hna hnb psi]
    exact ih (fun p2 hp2 => hvalid p2 (List.mem_cons_of_mem pr hp2)) hnd2 psi

theorem hScanGo_mono (rest : List Gate) :
    ∀ (lastH : Nat → Option Nat) (acc : List Nat) (i : Nat),
      ∃ tail, hScanGo lastH acc i rest = acc ++ tail := by
  induction rest with
  | nil => intro lastH acc i; exact ⟨[], by simp [hScanGo]⟩
  | cons gg gs ih =>
    intro lastH acc i
    cases gg with
    | h q =>
      cases hlh : lastH q with
      | some a =>
        obtain ⟨tail, ht⟩ := ih lastH (acc ++ [a, i]) (i + 1)
        refine ⟨[a, i] ++ tail, ?_⟩
        show (match lastH q with
          | some a2 => hScanGo lastH (acc ++ [a2, i]) (i + 1) gs
          | none => hScanGo (fun q2 => if q2 = q then some i else lastH q2) acc (i + 1) gs) =
          acc ++ ([a, i] ++ tail)
        rw [hlh]
        show hScanGo lastH (acc ++ [a, i]) (i + 1) gs = acc ++ ([a, i] ++ tail)
        rw [ht, List.append_assoc]
      | none =>
        obtain ⟨tail, ht⟩ := ih (fun q2 => if q2 = q then some i else lastH q2) acc (i + 1)
        refine ⟨tail, ?_⟩
        show (match lastH q with
          | some a2 => hScanGo lastH (acc ++ [a2, i]) (i + 1) gs
          | none => hScanGo (fun q2 => if q2 = q then some i else lastH q2) acc (i + 1) gs) =
          acc ++ tail
        rw [hlh]
        show hScanGo (fun q2 => if q2 = q then some i else lastH q2) acc (i + 1) gs =
          acc ++ tail
        rw [ht]
    | s q => exact ih _ acc (i + 1)
    | sdg q => exact ih _ acc (i + 1)
    | x q => exact ih _ acc (i + 1)
    | rz theta q => exact ih _ acc (i + 1)
    | p theta q => exact ih _ acc (i + 1)
    | cx c t => exact ih _ acc (i + 1)



/-- What the `h_to_remove` scan collects, provided the collected indices are
pairwise distinct: a flattened list of valid Hadamard pairs. -/
theorem hScanGo_spec (qc : Circuit) :
    ∀ (rest : List Gate) (i : Nat) (lastH : Nat → Option Nat) (acc : List Nat)
      (pairsAcc : List (Nat × Nat)),
      rest = qc.drop i →
      (∀ q a, lastH q = some a → a < i ∧ a < qc.length ∧
        qc.getD a default = Gate.h q ∧
        (a ∈ acc ∨ ∀ m, a < m → m < i → touches q (qc.getD m default) = false)) →
      acc = flatPairs pairsAcc →
      (∀ pr ∈ pairsAcc, validPair qc pr) →
      (hScanGo lastH acc i rest).Nodup →
      ∃ pairs, hScanGo lastH acc i rest = flatPairs pairs ∧
        ∀ pr ∈ pairs, validPair qc pr := by
  intro rest
  induction rest with
  | nil =>
    intro i lastH acc pairsAcc _ _ hacc hvalid _
    exact ⟨pairsAcc, hacc, hvalid⟩
  | cons gg gs ih =>
    intro i lastH acc pairsAcc hdrop hinv hacc hvalid hnd
    have hi : i < qc.length := by
      have hlen := congrArg List.length hdrop
      rw [List.length_drop, List.length_cons] at hlen
      omega
    have hsplit : qc.getD i default = gg ∧ gs = qc.drop (i + 1) := by
      have hd2 := List.drop_eq_getElem_cons hi
      rw [hd2] at hdrop
      have h3 := List.cons.injEq gg gs (qc[i]) (qc.drop (i + 1))
      rw [h3] at hdrop
      exact ⟨by rw [getD_at qc i hi, hdrop.1], hdrop.2⟩
    obtain ⟨hgd, hgs⟩ := hsplit
    cases gg with
    | h q =>
      cases hlh : lastH q with
      | none =>
        have hred : hScanGo lastH acc i (Gate.h q :: gs) =
            hScanGo (fun q2 => if q2 = q then some i else lastH q2) acc (i + 1) gs := by
          show (match lastH q with
            | some a2 => hScanGo lastH (acc ++ [a2, i]) (i + 1) gs
            | none => hScanGo (fun q2 => if q2 = q then some i else lastH q2)
                acc (i + 1) gs) = _
          rw [hlh]
        rw [hred] at hnd ⊢
        refine ih (i + 1) _ acc pairsAcc hgs ?_ hacc hvalid hnd
        intro q2 a2 h2
        by_cases hq2 : q2 = q
        · rw [if_pos hq2] at h2
          cases h2
          subst hq2
          refine ⟨by omega, hi, hgd, Or.inr fun m hm1 hm2 => by omega⟩
        · rw [if_neg hq2] at h2
          obtain ⟨h3, h4, h5, h6⟩ := hinv q2 a2 h2
          refine ⟨by omega, h4, h5, ?_⟩
          rcases h6 with h6 | h6
          · exact Or.inl h6
          · refine Or.inr fun m hm1 hm2 => ?_
            by_cases hmi : m = i
            · subst hmi
              rw [hgd]
              simp [touches, gateQubits, hq2]
            · exact h6 m hm1 (by omega)
      | some a =>
        have hred : hScanGo lastH acc i (Gate.h q :: gs) =
            hScanGo lastH (acc ++ [a, i]) (i + 1) gs := by
          show (match lastH q with
            | some a2 => hScanGo lastH (acc ++ [a2, i]) (i + 1) gs
            | none => hScanGo (fun q2 => if q2 = q then some i else lastH q2)
                acc (i + 1) gs) = _
          rw [hlh]
        rw [hred] at hnd ⊢
        obtain ⟨tail, ht⟩ := hScanGo_mono gs lastH (acc ++ [a, i]) (i + 1)
        have hprefnd : (acc ++ [a, i]).Nodup := by
          rw [ht] at hnd
          exact hnd.sublist (List.sublist_append_left (acc ++ [a, i]) tail)
        have hanotacc : a ∉ acc := by
          rw [List.nodup_append] at hprefnd
          intro hc
          exact hprefnd.2.2 hc (List.mem_cons_self a [i])
        obtain ⟨hai, halen, hga, hdisj⟩ := hinv q a hlh
        have hclean : ∀ m, a < m → m < i → touches q (qc.getD m default) = false := by
          rcases hdisj with h7 | h7
          · exact absurd h7 hanotacc
          · exact h7
        refine ih (i + 1) lastH (acc ++ [a, i]) (pairsAcc ++ [(a, i)]) hgs ?_ ?_ ?_ hnd
        · intro q2 a2 h2
          by_cases hq2 : q2 = q
          · subst hq2
            rw [hlh] at h2
            cases h2
            exact ⟨by omega, halen, hga,
              Or.inl (List.mem_append_right acc (List.mem_cons_self a [i]))⟩
          · obtain ⟨h3, h4, h5, h6⟩ := hinv q2 a2 h2
            refine ⟨by omega, h4, h5, ?_⟩
            rcases h6 with h6 | h6
            · exact Or.inl (List.mem_append_left _ h6)
            · refine Or.inr fun m hm1 hm2 => ?_
              by_cases hmi : m = i
              · subst hmi
                rw [hgd]
                simp [touches, gateQubits, hq2]
              · exact h6 m hm1 (by omega)
        · rw [hacc]
          unfold flatPairs
          rw [List.flatMap_append]
          rfl
        · intro pr hpr
          rcases List.mem_append.mp hpr with h7 | h7
          · exact hvalid pr h7
          · simp only [List.mem_cons, List.not_mem_nil, or_false] at h7
            subst h7
            exact ⟨hai, hi, q, hga, hgd, hclean⟩
    | s q =>
      have hred : hScanGo lastH acc i (Gate.s q :: gs) =
          hScanGo (fun q2 => if q2 ∈ gateQubits (Gate.s q) then none else lastH q2)
            acc (i + 1) gs := rfl
      rw [hred] at hnd ⊢
      refine ih (i + 1) _ acc pairsAcc hgs ?_ hacc hvalid hnd
      intro q2 a2 h2
      by_cases hmem : q2 ∈ gateQubits (Gate.s q)
      · rw [if_pos hmem] at h2
        cases h2
      · rw [if_neg hmem] at h2
        obtain ⟨h3, h4, h5, h6⟩ := hinv q2 a2 h2
        refine ⟨by omega, h4, h5, ?_⟩
        rcases h6 with h6 | h6
        · exact Or.inl h6
        · refine Or.inr fun m hm1 hm2 => ?_
          by_cases hmi : m = i
          · subst hmi
            rw [hgd]
            simp [touches, hmem]
          · exact h6 m hm1 (by omega)
    | sdg q =>
      have hred : hScanGo lastH acc i (Gate.sdg q :: gs) =
          hScanGo (fun q2 => if q2 ∈ gateQubits (Gate.sdg q) then none else lastH q2)
            acc (i + 1) gs := rfl
      rw [hred] at hnd ⊢
      refine ih (i + 1) _ acc pairsAcc hgs ?_ hacc hvalid hnd
      intro q2 a2 h2
      by_cases hmem : q2 ∈ gateQubits (Gate.sdg q)
      · rw [if_pos hmem] at h2
        cases h2
      · rw [if_neg hmem] at h2
        obtain ⟨h3, h4, h5, h6⟩ := hinv q2 a2 h2
        refine ⟨by omega, h4, h5, ?_⟩
        rcases h6 with h6 | h6
        · exact Or.inl h6
        · refine Or.inr fun m hm1 hm2 => ?_
          by_cases hmi : m = i
          · subst hmi
            rw [hgd]
            simp [touches, hmem]
          · exact h6 m hm1 (by omega)
    | x q =>
      have hred : hScanGo lastH acc i (Gate.x q :: gs) =
          hScanGo (fun q2 => if q2 ∈ gateQubits (Gate.x q) then none else lastH q2)
            acc (i + 1) gs := rfl
      rw [hred] at hnd ⊢
      refine ih (i + 1) _ acc pairsAcc hgs ?_ hacc hvalid hnd
      intro q2 a2 h2
      by_cases hmem : q2 ∈ gateQubits (Gate.x q)
      · rw [if_pos hmem] at h2
        cases h2
      · rw [if_neg hmem] at h2
        obtain ⟨h3, h4, h5, h6⟩ := hinv q2 a2 h2
        refine ⟨by omega, h4, h5, ?_⟩
        rcases h6 with h6 | h6
        · exact Or.inl h6
        · refine Or.inr fun m hm1 hm2 => ?_
          by_cases hmi : m = i
          · subst hmi
            rw [hgd]
            simp [touches, hmem]
          · exact h6 m hm1 (by omega)
    | rz theta q =>
      have hred : hScanGo lastH acc i (Gate.rz theta q :: gs) =
          hScanGo (fun q2 => if q2 ∈ gateQubits (Gate.rz theta q) then none else lastH q2)
            acc (i + 1) gs := rfl
      rw [hred] at hnd ⊢
      refine ih (i + 1) _ acc pairsAcc hgs ?_ hacc hvalid hnd
      intro q2 a2 h2
      by_cases hmem : q2 ∈ gateQubits (Gate.rz theta q)
      · rw [if_pos hmem] at h2
        cases h2
      · rw [if_neg hmem] at h2
        obtain ⟨h3, h4, h5, h6⟩ := hinv q2 a2 h2
        refine ⟨by omega, h4, h5, ?_⟩
        rcases h6 with h6 | h6
        · exact Or.inl h6
        · refine Or.inr fun m hm1 hm2 => ?_
          by_cases hmi : m = i
          · subst hmi
            rw [hgd]
            simp [touches, hmem]
          · exact h6 m hm1 (by omega)
    | p theta q =>
      have hred : hScanGo lastH acc i (Gate.p theta q :: gs) =
          hScanGo (fun q2 => if q2 ∈ gateQubits (Gate.p theta q) then none else lastH q2)
            acc (i + 1) gs := rfl
      rw [hred] at hnd ⊢
      refine ih (i + 1) _ acc pairsAcc hgs ?_ hacc hvalid hnd
      intro q2 a2 h2
      by_cases hmem : q2 ∈ gateQubits (Gate.p theta q)
      · rw [if_pos hmem] at h2
        cases h2
      · rw [if_neg hmem] at h2
        obtain ⟨h3, h4, h5, h6⟩ := hinv q2 a2 h2
        refine ⟨by omega, h4, h5, ?_⟩
        rcases h6 with h6 | h6
        · exact Or.inl h6
        · refine Or.inr fun m hm1 hm2 => ?_
          by_cases hmi : m = i
          · subst hmi
            rw [hgd]
            simp [touches, hmem]
          · exact h6 m hm1 (by omega)
    | cx c t =>
      have hred : hScanGo lastH acc i (Gate.cx c t :: gs) =
          hScanGo (fun q2 => if q2 ∈ gateQubits (Gate.cx c t) then none else lastH q2)
            acc (i + 1) gs := rfl
      rw [hred] at hnd ⊢
      refine ih (i + 1) _ acc pairsAcc hgs ?_ hacc hvalid hnd
      intro q2 a2 h2
      by_cases hmem : q2 ∈ gateQubits (Gate.cx c t)
      · rw [if_pos hmem] at h2
        cases h2
      · rw [if_neg hmem] at h2
        obtain ⟨h3, h4, h5, h6⟩ := hinv q2 a2 h2
        refine ⟨by omega, h4, h5, ?_⟩
        rcases h6 with h6 | h6
        · exact Or.inl h6
        · refine Or.inr fun m hm1 hm2 => ?_
          by_cases hmi : m = i
          · subst hmi
            rw [hgd]
            simp [touches, hmem]
          · exact h6 m hm1 (by omega)



theorem insSorted_perm (a : Nat) : ∀ l : List Nat, (insSorted a l).Perm (a :: l) := by
  intro l
  induction l with
  | nil => exact List.Perm.refl _
  | cons b bs ih =>
    unfold insSorted
    by_cases hab : a ≤ b
    · rw [if_pos hab]
    · rw [if_neg hab]
      exact (ih.cons b).trans (List.Perm.swap a b bs)

theorem sortNat_perm : ∀ l : List Nat, (sortNat l).Perm l := by
  intro l
  induction l with
  | nil => exact List.Perm.refl _
  | cons a as ih =>
    unfold sortNat at ih ⊢
    rw [List.foldr_cons]
    exact (insSorted_perm a _).trans (ih.cons a)

theorem insSorted_sorted (a : Nat) :
    ∀ l : List Nat, l.Pairwise (· ≤ ·) → (insSorted a l).Pairwise (· ≤ ·) := by
  intro l
  induction l with
  | nil => intro _; exact List.pairwise_singleton _ a
  | cons b bs ih =>
    intro hs
    rw [List.pairwise_cons] at hs
    unfold insSorted
    by_cases hab : a ≤ b
    · rw [if_pos hab]
      rw [List.pairwise_cons]
      refine ⟨?_, List.pairwise_cons.mpr hs⟩
      intro c hc
      rcases List.mem_cons.mp hc with rfl | hc2
      · exact hab
      · exact Nat.le_trans hab (hs.1 c hc2)
    · rw [if_neg hab]
      rw [List.pairwise_cons]
      refine ⟨?_, ih hs.2⟩
      intro c hc
      have h2 := (insSorted_perm a bs).mem_iff.mp hc
      rcases List.mem_cons.mp h2 with h1 | h1
      · rw [h1]
        omega
      · exact hs.1 c h1

theorem sortNat_sorted : ∀ l : List Nat, (sortNat l).Pairwise (· ≤ ·) := by
  intro l
  induction l with
  | nil => exact List.Pairwise.nil
  | cons a as ih => exact insSorted_sorted a _ ih

theorem keptFrom_keep_all (rem : List Nat) :
    ∀ (l : List Gate) (i : Nat), (∀ a ∈ rem, a < i) → keptFrom rem i l = l := by
  intro l
  induction l with
  | nil => intro i _; rfl
  | cons gg gs ih =>
    intro i hlt
    rw [keptFrom_cons_notmem _ _ (fun hc => absurd (hlt i hc) (by omega)),
      ih (i + 1) (fun a ha => by have := hlt a ha; omega)]

theorem keptFrom_erase :
    ∀ (l : List Gate) (rem : List Nat) (b i : Nat), (∀ a ∈ rem, a < b) → i ≤ b →
      b - i < l.length →
      keptFrom rem i (l.eraseIdx (b - i)) = keptFrom (rem ++ [b]) i l := by
  intro l
  induction l with
  | nil => intro rem b i _ _ hlen; simp at hlen
  | cons gg gs ih =>
    intro rem b i hlt hib hlen
    by_cases hbi : b - i = 0
    · have hbeq : b = i := by omega
      rw [hbi]
      show keptFrom rem i gs = keptFrom (rem ++ [b]) i (gg :: gs)
      have hmemb : i ∈ rem ++ [b] := by
        rw [← hbeq]
        exact List.mem_append_right rem (List.mem_cons_self b [])
      have hall2 : ∀ a ∈ rem ++ [b], a < i + 1 := by
        intro a ha
        rcases List.mem_append.mp ha with h1 | h1
        · have := hlt a h1
          omega
        · simp only [List.mem_cons, List.not_mem_nil, or_false] at h1
          omega
      rw [keptFrom_cons_mem _ _ hmemb,
        keptFrom_keep_all rem gs i (fun a ha => by have := hlt a ha; omega),
        keptFrom_keep_all (rem ++ [b]) gs (i + 1) hall2]
    · have hk : b - i = (b - (i + 1)) + 1 := by omega
      rw [hk]
      show keptFrom rem i (gg :: gs.eraseIdx (b - (i + 1))) = _
      have hmemiff : (i ∈ rem) ↔ i ∈ rem ++ [b] := by
        constructor
        · exact List.mem_append_left [b]
        · intro hc
          rcases List.mem_append.mp hc with h1 | h1
          · exact h1
          · simp only [List.mem_cons, List.not_mem_nil, or_false] at h1
            omega
      have hrec := ih rem b (i + 1) hlt (by omega) (by simp at hlen ⊢; omega)
      by_cases hi : i ∈ rem
      · rw [keptFrom_cons_mem _ _ hi, keptFrom_cons_mem _ _ (hmemiff.mp hi), hrec]
      · rw [keptFrom_cons_notmem _ _ hi,
          keptFrom_cons_notmem _ _ (fun hc => hi (hmemiff.mpr hc)), hrec]

theorem pops_eq_filter :
    ∀ (srt : List Nat), srt.Pairwise (· ≤ ·) → srt.Nodup →
      ∀ (qc : Circuit), (∀ a ∈ srt, a < qc.length) →
        (srt.reverse.foldlM popAt qc : Except Err Circuit) = .ok (keptIdx qc srt) := by
  intro srt
  induction srt using List.reverseRecOn with
  | nil =>
    intro _ _ qc _
    unfold keptIdx
    rw [keptFrom_nil]
    rfl
  | append_singleton srt2 b ih =>
    intro hsort hnd qc hlt
    have hble : ∀ a ∈ srt2, a ≤ b := by
      intro a ha
      have := List.pairwise_append.mp hsort
      exact this.2.2 a ha b (List.mem_cons_self b [])
    have haltb : ∀ a ∈ srt2, a < b := by
      intro a ha
      have hne : a ≠ b := by
        intro he
        subst he
        rw [List.nodup_append] at hnd
        exact hnd.2.2 ha (List.mem_cons_self a [])
      have := hble a ha
      omega
    have hb : b < qc.length := hlt b (List.mem_append_right srt2 (List.mem_cons_self b []))
    rw [List.reverse_append, List.reverse_singleton, List.singleton_append,
      List.foldlM_cons]
    have hpop : popAt qc b = .ok (qc.eraseIdx b) := by
      unfold popAt
      rw [if_pos hb]
    rw [hpop, ok_bind]
    rw [ih (List.pairwise_append.mp hsort).1 ((List.nodup_append.mp hnd).1)
      (qc.eraseIdx b) ?_]
    · unfold keptIdx
      have herase := keptFrom_erase qc srt2 b 0 haltb (Nat.zero_le b) (by omega)
      rw [Nat.sub_zero] at herase
      rw [herase]
    · intro a ha
      rw [List.length_eraseIdx]
      have := haltb a ha
      simp [hb]
      omega



/-- C9 (amended): provided no index is collected twice, the cleanup indices
decompose into valid Hadamard pairs (two H gates on one qubit with no
intervening gate touching it), and popping them preserves the denoted
operator. -/
theorem claim_C9 (qc qc2 : Circuit) (h : remove_hh qc = .ok qc2)
    (hnd : (hToRemove qc).Nodup) :
    (∃ pairs, hToRemove qc = flatPairs pairs ∧ ∀ pr ∈ pairs, validPair qc pr) ∧
      ∀ psi, sem qc2 psi = sem qc psi := by
  have hspec := hScanGo_spec qc qc 0 (fun _ => none) [] [] (List.drop_zero qc).symm
    (fun q a ha => by cases ha) rfl (fun pr hpr => absurd hpr (List.not_mem_nil pr))
    (by exact hnd)
  obtain ⟨pairs, hpeq, hpvalid⟩ := hspec
  have hpeq2 : hToRemove qc = flatPairs pairs := hpeq
  have hblt : ∀ a ∈ hToRemove qc, a < qc.length := by
    intro a ha
    rw [hpeq2] at ha
    obtain ⟨pr, hpr, hmem⟩ := List.mem_flatMap.mp ha
    obtain ⟨h1, h2, _⟩ := hpvalid pr hpr
    simp only [List.mem_cons, List.not_mem_nil, or_false] at hmem
    rcases hmem with rfl | rfl
    · omega
    · omega
  have hperm := sortNat_perm (hToRemove qc)
  have hndsrt : (sortNat (hToRemove qc)).Nodup := hperm.nodup_iff.mpr hnd
  have hbsrt : ∀ a ∈ sortNat (hToRemove qc), a < qc.length :=
    fun a ha => hblt a (hperm.mem_iff.mp ha)
  have hpops := pops_eq_filter (sortNat (hToRemove qc)) (sortNat_sorted _) hndsrt qc hbsrt
  have h2 : remove_hh qc = .ok (keptIdx qc (sortNat (hToRemove qc))) := by
    unfold remove_hh
    exact hpops
  rw [h2] at h
  have hqc2 : qc2 = keptIdx qc (sortNat (hToRemove qc)) := by
    cases h
    rfl
  have hcongr : keptIdx qc (sortNat (hToRemove qc)) = keptIdx qc (flatPairs pairs) := by
    unfold keptIdx
    exact keptFrom_congr _ _ (fun a => by rw [hperm.mem_iff, hpeq2]) qc 0
  have hndp : (flatPairs pairs).Nodup := hpeq2 ▸ hnd
  refine ⟨⟨pairs, hpeq2, hpvalid⟩, fun psi => ?_⟩
  rw [hqc2, hcongr]
  exact kept_pairs_sem qc pairs hpvalid hndp psi

/-- The basis amplitude vector concentrated on qubit 0 being `0`. -/
noncomputable def delta0 : V := fun f => if f 0 = false then 1 else 0

/-- The all-ones bit assignment. -/
def allTrue : Nat → Bool := fun _ => true

/-- C9 counterexample: on `[h 0, h 0, h 0, x 0]` the cleanup records index 0
twice (the third `h` pairs against the stale `last_h` entry), the descending
pops delete all four gates, and the resulting empty circuit does not denote
the same operator as the original `H·X` circuit. -/
theorem claim_C9_counterexample :
    remove_hh [Gate.h 0, Gate.h 0, Gate.h 0, Gate.x 0] = .ok [] ∧
      hToRemove [Gate.h 0, Gate.h 0, Gate.h 0, Gate.x 0] = [0, 1, 0, 2] ∧
      sem [Gate.h 0, Gate.h 0, Gate.h 0, Gate.x 0] delta0 allTrue ≠
        sem [] delta0 allTrue := by
  refine ⟨by decide, by decide, ?_⟩
  have h1 : ∀ f, applyGate (Gate.h 0) delta0 f = 1 / ((Real.sqrt 2 : ℝ) : ℂ) := by
    intro f
    simp [applyGate, delta0, Function.update_same]
  have hhh : applyGate (Gate.h 0) (applyGate (Gate.h 0) delta0) = delta0 :=
    applyH_applyH 0 delta0
  have hsem : sem [Gate.h 0, Gate.h 0, Gate.h 0, Gate.x 0] delta0 =
      applyGate (Gate.x 0) (applyGate (Gate.h 0)
        (applyGate (Gate.h 0) (applyGate (Gate.h 0) delta0))) := rfl
  rw [hsem, hhh]
  have hval : applyGate (Gate.x 0) (applyGate (Gate.h 0) delta0) allTrue =
      1 / ((Real.sqrt 2 : ℝ) : ℂ) := by
    show applyGate (Gate.h 0) delta0 (Function.update allTrue 0 (!allTrue 0)) =
      1 / ((Real.sqrt 2 : ℝ) : ℂ)
    exact h1 _
  rw [hval]
  have hz : sem [] delta0 allTrue = 0 := by
    show delta0 allTrue = 0
    simp [delta0, allTrue]
  rw [hz]
  have hne : ((Real.sqrt 2 : ℝ) : ℂ) ≠ 0 := by
    simp only [ne_eq, Complex.ofReal_eq_zero]
    positivity
  exact one_div_ne_zero hne

/-- Concrete instantiation of `claim_C9`: remove one clean Hadamard pair. -/
theorem claim_C9_witness :
    remove_hh [Gate.h 0, Gate.x 1, Gate.h 0, Gate.s 0] = .ok [Gate.x 1, Gate.s 0] ∧
      (hToRemove [Gate.h 0, Gate.x 1, Gate.h 0, Gate.s 0]).Nodup ∧
      ((∃ pairs, hToRemove [Gate.h 0, Gate.x 1, Gate.h 0, Gate.s 0] = flatPairs pairs ∧
        ∀ pr ∈ pairs, validPair [Gate.h 0, Gate.x 1, Gate.h 0, Gate.s 0] pr) ∧
      ∀ psi, sem [Gate.x 1, Gate.s 0] psi =
        sem [Gate.h 0, Gate.x 1, Gate.h 0, Gate.s 0] psi) :=
  ⟨by decide, by decide,
    claim_C9 [Gate.h 0, Gate.x 1, Gate.h 0, Gate.s 0] [Gate.x 1, Gate.s 0]
      (by decide) (by decide)⟩

end HamSim
